import Mathlib

/-!
Verification of the structure-search core of a Bayesian-network classifier
(`estimators.py`): the pairwise dependency scorer (mutual information and
conditional mutual information), the Chow-Liu tree search
(`TreeAugmentedNaiveBayesSearch.estimate`), and the constraint-based CBL2
search (`BNAugmentedNaiveBayesSearch.estimate`, `try_to_separate_a`,
`try_to_separate_b`).

Columns of the observation table are shallowly embedded as `List ℤ` of
discrete codes; column names as `ℕ`; the working undirected graph as a
record of a node list and an edge list.  Library routines that the source
calls (sklearn's `mutual_info_score`, networkx's `has_path`,
`all_simple_paths`, `maximum_spanning_tree`, `bfs_tree`, `dfs_tree`) are
modelled from their documented semantics, since their code is not part of
this repository.
-/

open scoped Classical

namespace BNC

/-! ### The pairwise dependency scorer -/

/-- Model of pandas `Series.unique`: the distinct values of a column in
order of first appearance (fuelled by the list length so that the
recursion is structural). -/
def uniquesAux : ℕ → List ℤ → List ℤ
  | 0, _ => []
  | _, [] => []
  | fuel + 1, a :: l => a :: uniquesAux fuel (l.filter (fun b => b ≠ a))

def uniques (l : List ℤ) : List ℤ := uniquesAux l.length l

/-- Model of the boolean-mask row selection `x[cond == i]`: keep the entries
of `x` whose row, in the positional alignment of `x` with the conditioning
column `cond`, carries the value `i`.  (The source performs no length
validation; on equal-length columns this is exactly the pandas behaviour.) -/
def restrict (x cond : List ℤ) (i : ℤ) : List ℤ :=
  ((x.zip cond).filter (fun p => p.2 = i)).map Prod.fst

/-- Model of sklearn's `mutual_info_score(xs, ys)`: empirical mutual
information (natural log) of the joint distribution of the label pairs
`zip xs ys`, `∑ p_ab * log (p_ab / (p_a * p_b))` over the observed pairs. -/
noncomputable def mutual_info_score (xs ys : List ℤ) : ℝ :=
  let n : ℝ := xs.length
  let zs := xs.zip ys
  (zs.dedup.map (fun p =>
    ((zs.count p : ℝ) / n) *
      Real.log (((zs.count p : ℝ) * n) /
        ((xs.count p.1 : ℝ) * (ys.count p.2 : ℝ))))).sum

/-- `BNAugmentedNaiveBayesSearch.conditional_mutual_info_score`, translated
from the source: with no conditioning columns it returns
`mutual_info_score`; otherwise it runs the accumulating double loop
`for cond in columns: for i in cond.unique(): acc += P(cond = i) * MI(xi|cond=i, xj|cond=i)`. -/
noncomputable def conditional_mutual_info_score (xi xj : List ℤ)
    (cs : List (List ℤ)) : ℝ :=
  if cs.length = 0 then mutual_info_score xi xj
  else cs.foldl (fun acc cond =>
    (uniques cond).foldl (fun acc2 i =>
      acc2 + ((cond.count i : ℝ) / (cond.length : ℝ)) *
        mutual_info_score (restrict xi cond i) (restrict xj cond i)) acc) 0

/-- The specification's description of the conditional scorer: for zero
conditioning columns, plain mutual information; otherwise the sum, over
each conditioning column taken independently and over each observed value
of that column, of the empirical probability of the value times the mutual
information of the restrictions, accumulated (not averaged) across columns. -/
noncomputable def conditional_mutual_information_spec (xi xj : List ℤ)
    (cs : List (List ℤ)) : ℝ :=
  if cs = [] then mutual_info_score xi xj
  else (cs.map (fun cond =>
    ((uniques cond).map (fun i =>
      ((cond.count i : ℝ) / (cond.length : ℝ)) *
        mutual_info_score (restrict xi cond i) (restrict xj cond i))).sum)).sum

lemma foldl_add_eq_sum (f : ℤ → ℝ) (l : List ℤ) (a : ℝ) :
    l.foldl (fun acc x => acc + f x) a = a + (l.map f).sum := by
  induction l generalizing a with
  | nil => simp
  | cons x xs ih => simp [ih, add_assoc]

lemma foldl_cols_eq_sum (g : List ℤ → ℝ) (cs : List (List ℤ)) (a : ℝ)
    (F : ℝ → List ℤ → ℝ) (hF : ∀ acc cond, F acc cond = acc + g cond) :
    cs.foldl F a = a + (cs.map g).sum := by
  induction cs generalizing a with
  | nil => simp
  | cons c cs ih => simp [hF, ih, add_assoc]

/-- C1: `conditional_mutual_info_score(X, Y, C)` returns
`mutual_info_score(X, Y)` when `C` has zero columns; with one or more
conditioning columns it equals the sum over each conditioning column
independently, and over each observed value of that column, of the
empirical probability of the value times the mutual information of `X` and
`Y` restricted to the matching rows, accumulated across all conditioning
columns without averaging. -/
theorem C1_conditional_mutual_info_matches_spec (xi xj : List ℤ)
    (cs : List (List ℤ)) (hxy : xi.length = xj.length)
    (hc : ∀ c ∈ cs, c.length = xi.length) :
    conditional_mutual_info_score xi xj cs =
      conditional_mutual_information_spec xi xj cs := by
  unfold conditional_mutual_info_score conditional_mutual_information_spec
  rcases eq_or_ne cs [] with h | h
  · simp [h]
  · rw [if_neg (by simpa using h), if_neg h]
    rw [foldl_cols_eq_sum (fun cond =>
        ((uniques cond).map (fun i =>
          ((cond.count i : ℝ) / (cond.length : ℝ)) *
            mutual_info_score (restrict xi cond i) (restrict xj cond i))).sum)
        cs 0 _ ?_]
    · simp
    · intro acc cond
      exact foldl_add_eq_sum _ _ acc

/-- Witness for C1 at a concrete input: two equal-length binary columns and
one conditioning column. -/
theorem C1_witness :
    ([0, 1] : List ℤ).length = ([0, 1] : List ℤ).length ∧
      (∀ c ∈ ([[0, 0]] : List (List ℤ)), c.length = ([0, 1] : List ℤ).length) ∧
      conditional_mutual_info_score [0, 1] [0, 1] [[0, 0]] =
        conditional_mutual_information_spec [0, 1] [0, 1] [[0, 0]] :=
  ⟨rfl, by decide,
    C1_conditional_mutual_info_matches_spec [0, 1] [0, 1] [[0, 0]] rfl (by decide)⟩

/-! ### The undirected working graph (model of `networkx.Graph`) -/

/-- An undirected working graph: a list of nodes (column names) and a list
of undirected edges, each stored once in the orientation it was added. -/
structure Graph where
  nodes : List ℕ
  edges : List (ℕ × ℕ)
deriving DecidableEq, Repr

/-- Whether `u` and `v` are joined by an edge (in either orientation). -/
def adjacent (g : Graph) (u v : ℕ) : Bool :=
  g.edges.any (fun e => (e.1 == u && e.2 == v) || (e.1 == v && e.2 == u))

/-- Model of `networkx` neighbor lookup: the other endpoints of the edges
incident to `u`, in edge-insertion order. -/
def neighbors (g : Graph) (u : ℕ) : List ℕ :=
  g.edges.filterMap (fun e =>
    if e.1 = u then some e.2 else if e.2 = u then some e.1 else none)

/-- Model of `Graph.add_edge`: a no-op on an existing edge, otherwise the
edge is appended and missing endpoints are added to the node list. -/
def addEdge (g : Graph) (u v : ℕ) : Graph :=
  if adjacent g u v then g
  else
    let ns1 := if u ∈ g.nodes then g.nodes else g.nodes ++ [u]
    let ns2 := if v ∈ ns1 then ns1 else ns1 ++ [v]
    ⟨ns2, g.edges ++ [(u, v)]⟩

/-- Model of `Graph.remove_edge`. -/
def removeEdge (g : Graph) (u v : ℕ) : Graph :=
  ⟨g.nodes, g.edges.filter
    (fun e => !((e.1 == u && e.2 == v) || (e.1 == v && e.2 == u)))⟩

/-- One breadth-expansion of a reached set: append every node of the graph
adjacent to the set and not yet in it. -/
def reachStep (g : Graph) (s : List ℕ) : List ℕ :=
  s ++ g.nodes.filter (fun v => decide (v ∉ s) && s.any (fun u => adjacent g u v))

/-- Iterated expansion. -/
def reachAux (g : Graph) : ℕ → List ℕ → List ℕ
  | 0, s => s
  | fuel + 1, s => reachAux g fuel (reachStep g s)

/-- All nodes reachable from `u` (the expansion stabilizes within
`|nodes| + 1` rounds). -/
def reachList (g : Graph) (u : ℕ) : List ℕ :=
  reachAux g (g.nodes.length + 1) [u]

/-- Model of `networkx.has_path`. -/
def hasPath (g : Graph) (u v : ℕ) : Bool :=
  decide (v ∈ reachList g u)

/-- Propositional adjacency. -/
def adjP (g : Graph) (u v : ℕ) : Prop := adjacent g u v = true

/-- Propositional connectivity: the reflexive-transitive closure of
adjacency. -/
def Conn (g : Graph) : ℕ → ℕ → Prop := Relation.ReflTransGen (adjP g)

/-- Well-formedness of a working graph: distinct node names and edge
endpoints drawn from the node list. -/
def WF (g : Graph) : Prop :=
  g.nodes.Nodup ∧ ∀ e ∈ g.edges, e.1 ∈ g.nodes ∧ e.2 ∈ g.nodes

lemma adjacent_iff {g : Graph} {u v : ℕ} :
    adjacent g u v = true ↔
      ∃ e ∈ g.edges, (e.1 = u ∧ e.2 = v) ∨ (e.1 = v ∧ e.2 = u) := by
  simp [adjacent, List.any_eq_true]

lemma adjP_symm {g : Graph} {u v : ℕ} (h : adjP g u v) : adjP g v u := by
  rcases adjacent_iff.mp h with ⟨e, he, h'⟩
  exact adjacent_iff.mpr ⟨e, he, h'.symm⟩

lemma conn_refl (g : Graph) (u : ℕ) : Conn g u u := Relation.ReflTransGen.refl

lemma conn_trans {g : Graph} {u v w : ℕ} (h1 : Conn g u v) (h2 : Conn g v w) :
    Conn g u w := Relation.ReflTransGen.trans h1 h2

lemma conn_symm {g : Graph} {u v : ℕ} (h : Conn g u v) : Conn g v u := by
  induction h with
  | refl => exact Relation.ReflTransGen.refl
  | tail _ hab ih =>
      exact Relation.ReflTransGen.trans
        (Relation.ReflTransGen.single (adjP_symm hab)) ih

lemma adjacent_mono {g1 g2 : Graph} (h : g1.edges ⊆ g2.edges) {u v : ℕ}
    (ha : adjP g1 u v) : adjP g2 u v := by
  rcases adjacent_iff.mp ha with ⟨e, he, h'⟩
  exact adjacent_iff.mpr ⟨e, h he, h'⟩

lemma conn_mono {g1 g2 : Graph} (h : g1.edges ⊆ g2.edges) {u v : ℕ}
    (hc : Conn g1 u v) : Conn g2 u v := by
  induction hc with
  | refl => exact Relation.ReflTransGen.refl
  | tail _ hab ih => exact Relation.ReflTransGen.tail ih (adjacent_mono h hab)

/-! Soundness of `hasPath`: everything it reaches is connected. -/

lemma reachStep_sound {g : Graph} {u : ℕ} {s : List ℕ}
    (hs : ∀ x ∈ s, Conn g u x) : ∀ x ∈ reachStep g s, Conn g u x := by
  intro x hx
  rcases List.mem_append.mp hx with h | h
  · exact hs x h
  · rcases List.mem_filter.mp h with ⟨_, hp⟩
    simp only [Bool.and_eq_true, List.any_eq_true] at hp
    rcases hp with ⟨_, w, hw, hadj⟩
    exact Relation.ReflTransGen.tail (hs w hw) hadj

lemma reachAux_sound {g : Graph} {u : ℕ} :
    ∀ (fuel : ℕ) (s : List ℕ), (∀ x ∈ s, Conn g u x) →
      ∀ x ∈ reachAux g fuel s, Conn g u x := by
  intro fuel
  induction fuel with
  | zero => intro s hs; exact hs
  | succ n ih => intro s hs; exact ih _ (reachStep_sound hs)

lemma hasPath_sound {g : Graph} {u v : ℕ} (h : hasPath g u v = true) :
    Conn g u v := by
  have hbase : ∀ x ∈ [u], Conn g u x := by
    intro x hx
    simp at hx
    subst hx
    exact conn_refl _ _
  have hall := reachAux_sound (g.nodes.length + 1) [u] hbase
  exact hall v (by simpa [hasPath, reachList] using h)

/-! Completeness of `hasPath`: the expansion stabilizes and the stable set
is closed under adjacency. -/

lemma reachStep_sub (g : Graph) (s : List ℕ) : s ⊆ reachStep g s :=
  List.subset_append_left _ _

lemma reachStep_nodup {g : Graph} {s : List ℕ} (hg : g.nodes.Nodup)
    (hs : s.Nodup) : (reachStep g s).Nodup := by
  refine List.Nodup.append hs (hg.filter _) ?_
  intro x hx hx'
  rcases List.mem_filter.mp hx' with ⟨_, hp⟩
  simp only [Bool.and_eq_true, decide_eq_true_eq] at hp
  exact hp.1 hx

lemma reachStep_subset_nodes {g : Graph} {u : ℕ} {s : List ℕ}
    (hs : s ⊆ u :: g.nodes) : reachStep g s ⊆ u :: g.nodes := by
  intro x hx
  rcases List.mem_append.mp hx with h | h
  · exact hs h
  · exact List.mem_cons_of_mem _ (List.mem_filter.mp h).1

lemma reachAux_stable {g : Graph} {s : List ℕ} (h : reachStep g s = s) :
    ∀ fuel, reachAux g fuel s = s := by
  intro fuel
  induction fuel with
  | zero => rfl
  | succ n ih => simp [reachAux, h, ih]

lemma reachStep_grow {g : Graph} {s : List ℕ} (h : reachStep g s ≠ s) :
    s.length + 1 ≤ (reachStep g s).length := by
  by_cases hnil : g.nodes.filter
      (fun v => decide (v ∉ s) && s.any (fun u => adjacent g u v)) = []
  · refine absurd ?_ h
    show reachStep g s = s
    unfold reachStep
    rw [hnil]
    simp
  · have h1 : 1 ≤ (g.nodes.filter
        (fun v => decide (v ∉ s) && s.any (fun u => adjacent g u v))).length :=
      Nat.one_le_iff_ne_zero.mpr
        (fun h0 => hnil (List.length_eq_zero.mp h0))
    simp only [reachStep, List.length_append]
    omega

lemma reachAux_stabilizes {g : Graph} {u : ℕ} (hg : g.nodes.Nodup) :
    ∀ (fuel : ℕ) (s : List ℕ), s.Nodup → s ⊆ u :: g.nodes →
      (u :: g.nodes).length ≤ fuel + s.length →
      reachStep g (reachAux g fuel s) = reachAux g fuel s := by
  intro fuel
  induction fuel with
  | zero =>
      intro s hs hsub hlen
      have hcard : s.length ≤ (u :: g.nodes).toFinset.card := by
        have : s.toFinset ⊆ (u :: g.nodes).toFinset := by
          intro x hx
          exact List.mem_toFinset.mpr (hsub (List.mem_toFinset.mp hx))
        calc s.length = s.toFinset.card := (List.toFinset_card_of_nodup hs).symm
          _ ≤ (u :: g.nodes).toFinset.card := Finset.card_le_card this
      have hcard2 : (u :: g.nodes).toFinset.card ≤ (u :: g.nodes).length :=
        (u :: g.nodes).toFinset_card_le
      have hall : ∀ x ∈ (u :: g.nodes), x ∈ s := by
        intro x hx
        have hsfin : s.toFinset = (u :: g.nodes).toFinset := by
          apply Finset.eq_of_subset_of_card_le
          · intro y hy
            exact List.mem_toFinset.mpr (hsub (List.mem_toFinset.mp hy))
          · have : (u :: g.nodes).length ≤ s.length := by simpa using hlen
            calc (u :: g.nodes).toFinset.card ≤ (u :: g.nodes).length := hcard2
              _ ≤ s.length := this
              _ = s.toFinset.card := (List.toFinset_card_of_nodup hs).symm
        exact List.mem_toFinset.mp (hsfin ▸ List.mem_toFinset.mpr hx)
      show reachStep g s = s
      unfold reachStep
      have hfil : g.nodes.filter
          (fun v => decide (v ∉ s) && s.any (fun u => adjacent g u v)) = [] := by
        apply List.filter_eq_nil_iff.mpr
        intro a ha
        have : a ∈ s := hall a (List.mem_cons_of_mem _ ha)
        simp [this]
      rw [hfil]
      simp
  | succ n ih =>
      intro s hs hsub hlen
      by_cases hstab : reachStep g s = s
      · have h1 : reachAux g (n + 1) s = s := reachAux_stable hstab (n + 1)
        rw [h1, hstab]
      · have h1 : reachAux g (n + 1) s = reachAux g n (reachStep g s) := rfl
        rw [h1]
        refine ih (reachStep g s) (reachStep_nodup hg hs)
          (reachStep_subset_nodes hsub) ?_
        have := reachStep_grow hstab
        omega

lemma stable_closed {g : Graph} {s : List ℕ} (hwf : WF g)
    (hstab : reachStep g s = s) {b c : ℕ} (hb : b ∈ s) (hadj : adjP g b c) :
    c ∈ s := by
  by_contra hc
  have hcn : c ∈ g.nodes := by
    rcases adjacent_iff.mp hadj with ⟨e, he, h'⟩
    rcases hwf.2 e he with ⟨h1, h2⟩
    rcases h' with ⟨ha, hb'⟩ | ⟨ha, hb'⟩
    · exact hb' ▸ h2
    · exact ha ▸ h1
  have hfil : g.nodes.filter
      (fun v => decide (v ∉ s) && s.any (fun u => adjacent g u v)) = [] := by
    have h2 : s ++ g.nodes.filter
        (fun v => decide (v ∉ s) && s.any (fun u => adjacent g u v)) =
        s ++ [] := by simpa [reachStep] using hstab
    exact List.append_cancel_left h2
  have hnofil := List.filter_eq_nil_iff.mp hfil c hcn
  have hany : s.any (fun u => adjacent g u c) = true :=
    List.any_eq_true.mpr ⟨b, hb, hadj⟩
  exact hnofil (by simp [hc, hany])

lemma mem_reachAux_self {g : Graph} :
    ∀ (fuel : ℕ) (s : List ℕ), s ⊆ reachAux g fuel s := by
  intro fuel
  induction fuel with
  | zero => intro s; exact fun _ h => h
  | succ n ih =>
      intro s
      exact fun x hx => ih (reachStep g s) (reachStep_sub g s hx)

lemma hasPath_complete {g : Graph} {u v : ℕ} (hwf : WF g)
    (hc : Conn g u v) : hasPath g u v = true := by
  have hstab : reachStep g (reachList g u) = reachList g u := by
    apply reachAux_stabilizes hwf.1 (g.nodes.length + 1) [u]
    · exact List.nodup_singleton u
    · intro x hx; simp at hx; subst hx; exact List.mem_cons_self _ _
    · simp
  have hu : u ∈ reachList g u :=
    mem_reachAux_self _ [u] (List.mem_singleton_self u)
  have hmem : v ∈ reachList g u := by
    induction hc with
    | refl => exact hu
    | tail _ hab ih => exact stable_closed hwf hstab ih hab
  simpa [hasPath] using hmem

/-! ### Counting connected components -/

/-- A node is a component representative when no node occurring strictly
earlier in the node list reaches it. -/
def isRep (g : Graph) (u : ℕ) : Bool :=
  !((g.nodes.takeWhile (fun v => v != u)).any (fun v => hasPath g v u))

/-- Number of connected components of the working graph. -/
def ncomp (g : Graph) : ℕ := (g.nodes.filter (isRep g)).length

lemma mem_takeWhile_ne_index {u v : ℕ} :
    ∀ (l : List ℕ), l.Nodup → u ∈ l →
      v ∈ l.takeWhile (fun x => x != u) →
      v ∈ l ∧ l.indexOf v < l.indexOf u := by
  intro l
  induction l with
  | nil => intro _ h; simp at h
  | cons a l ih =>
      intro hnd hu hv
      by_cases hau : a = u
      · subst hau
        rw [List.takeWhile_cons] at hv
        simp at hv
      · rw [List.takeWhile_cons] at hv
        rw [if_pos (by simpa using hau)] at hv
        have hul : u ∈ l := by
          rcases List.mem_cons.mp hu with h | h
          · exact absurd h.symm hau
          · exact h
        rcases List.mem_cons.mp hv with hva | hvl
        · subst hva
          refine ⟨List.mem_cons_self _ _, ?_⟩
          rw [List.indexOf_cons_self, List.indexOf_cons_ne _ (by simpa using hau)]
          omega
        · rcases ih (List.Nodup.of_cons hnd) hul hvl with ⟨hvml, hidx⟩
          have hva : v ≠ a := by
            intro h
            subst h
            exact (List.nodup_cons.mp hnd).1 hvml
          refine ⟨List.mem_cons_of_mem _ hvml, ?_⟩
          rw [List.indexOf_cons_ne _ (by simpa using Ne.symm hva),
            List.indexOf_cons_ne _ (by simpa using hau)]
          omega

lemma isRep_head {g : Graph} {n0 : ℕ} {rest : List ℕ}
    (h : g.nodes = n0 :: rest) : isRep g n0 = true := by
  unfold isRep
  rw [h, List.takeWhile_cons]
  simp

lemma conn_from_head {g : Graph} (hwf : WF g) {n0 : ℕ} {rest : List ℕ}
    (hnodes : g.nodes = n0 :: rest)
    (hfil : g.nodes.filter (isRep g) = [n0]) :
    ∀ u ∈ g.nodes, Conn g n0 u := by
  have main : ∀ k, ∀ u ∈ g.nodes, g.nodes.indexOf u = k → Conn g n0 u := by
    intro k
    induction k using Nat.strong_induction_on with
    | _ k ih =>
      intro u hu hk
      by_cases hun : u = n0
      · subst hun
        exact conn_refl _ _
      · have hrep : ¬ isRep g u = true := by
          intro hrep
          have hmem : u ∈ g.nodes.filter (isRep g) :=
            List.mem_filter.mpr ⟨hu, hrep⟩
          rw [hfil] at hmem
          simp at hmem
          exact hun hmem
        unfold isRep at hrep
        simp only [Bool.not_eq_true', Bool.not_eq_false, List.any_eq_true] at hrep
        rcases hrep with ⟨v, hvtw, hpath⟩
        rcases mem_takeWhile_ne_index g.nodes hwf.1 hu hvtw with ⟨hvm, hidx⟩
        have hconn_v : Conn g n0 v := ih _ (hk ▸ hidx) v hvm rfl
        exact conn_trans hconn_v (hasPath_sound hpath)
  intro u hu
  exact main (g.nodes.indexOf u) u hu rfl

lemma ncomp_one_conn {g : Graph} (hwf : WF g) (h1 : ncomp g = 1) :
    ∀ u ∈ g.nodes, ∀ v ∈ g.nodes, Conn g u v := by
  rcases hn : g.nodes with _ | ⟨n0, rest⟩
  · intro u hu
    simp at hu
  · have hhead : isRep g n0 = true := isRep_head hn
    have hmem : n0 ∈ g.nodes.filter (isRep g) :=
      List.mem_filter.mpr ⟨by rw [hn]; exact List.mem_cons_self _ _, hhead⟩
    have hfil : g.nodes.filter (isRep g) = [n0] := by
      have hlen : (g.nodes.filter (isRep g)).length = 1 := h1
      rcases hf : g.nodes.filter (isRep g) with _ | ⟨a, tl⟩
      · rw [hf] at hmem
        simp at hmem
      · rw [hf] at hlen hmem
        simp only [List.length_cons] at hlen
        have htl : tl = [] := by
          cases tl
          · rfl
          · simp at hlen
        subst htl
        simp at hmem
        rw [hmem]
    have hall := conn_from_head hwf hn hfil
    intro u hu v hv
    have hu' : u ∈ g.nodes := by rw [hn]; exact hu
    have hv' : v ∈ g.nodes := by rw [hn]; exact hv
    exact conn_trans (conn_symm (hall u hu')) (hall v hv')

/-! ### The drafting scan of the constraint-based search -/

/-- The single scan over the remaining sorted candidate list in the
drafting stage of `BNAugmentedNaiveBayesSearch.estimate`.  Mirroring the
source loop: for each candidate, the loop first breaks when
`len(graph.edges) - 1 == len(graph.nodes)` (that is `|E| = |V| + 1`, as
literally written there), and otherwise adds the candidate edge exactly
when its endpoints are not already joined by a path; candidates whose edge
is added are popped from the list, rejected candidates are kept (in
order) for the later stages, and on a break the rest of the list is kept. -/
def scanDraft (g : Graph) : List (ℕ × ℕ × ℝ) → Graph × List (ℕ × ℕ × ℝ)
  | [] => (g, [])
  | c :: rest =>
    if g.edges.length = g.nodes.length + 1 then (g, c :: rest)
    else if hasPath g c.1 c.2.1 then
      let r := scanDraft g rest
      (r.1, c :: r.2)
    else
      let r := scanDraft (addEdge g c.1 c.2.1) rest
      (r.1, r.2)

/-- C2: once the working graph of the drafting scan — always a forest,
certified here by `ncomp + |E| = |V|` — has edge count equal to node count
minus one, it is a spanning tree, every candidate pair is already
connected, and the scan adds no further edge: the graph comes out of the
rest of the scan unchanged. -/
theorem C2_draft_scan_adds_nothing_at_spanning_tree (g : Graph)
    (l : List (ℕ × ℕ × ℝ)) (hwf : WF g)
    (hforest : ncomp g + g.edges.length = g.nodes.length)
    (hcount : g.edges.length + 1 = g.nodes.length)
    (hcand : ∀ c ∈ l, c.1 ∈ g.nodes ∧ c.2.1 ∈ g.nodes) :
    (scanDraft g l).1 = g := by
  have hn1 : ncomp g = 1 := by omega
  have hconn := ncomp_one_conn hwf hn1
  induction l with
  | nil => rfl
  | cons c rest ih =>
      unfold scanDraft
      by_cases hbreak : g.edges.length = g.nodes.length + 1
      · rw [if_pos hbreak]
      · rw [if_neg hbreak]
        have hc := hcand c (List.mem_cons_self _ _)
        have hpath : hasPath g c.1 c.2.1 = true :=
          hasPath_complete hwf (hconn _ hc.1 _ hc.2)
        rw [if_pos hpath]
        exact ih (fun d hd => hcand d (List.mem_cons_of_mem _ hd))

/-- Witness for C2: a two-node spanning tree (one edge) and a remaining
candidate list whose single candidate joins the two already-connected
nodes; the scan leaves the graph unchanged. -/
theorem C2_witness :
    WF ⟨[0, 1], [(0, 1)]⟩ ∧
      ncomp ⟨[0, 1], [(0, 1)]⟩ + (Graph.edges ⟨[0, 1], [(0, 1)]⟩).length = 2 ∧
      (Graph.edges ⟨[0, 1], [(0, 1)]⟩).length + 1 = 2 ∧
      (scanDraft ⟨[0, 1], [(0, 1)]⟩ [(0, 1, 0)]).1 = ⟨[0, 1], [(0, 1)]⟩ := by
  refine ⟨⟨by decide, by decide⟩, by decide, by decide, ?_⟩
  exact C2_draft_scan_adds_nothing_at_spanning_tree ⟨[0, 1], [(0, 1)]⟩
    [(0, 1, 0)] ⟨by decide, by decide⟩ (by decide) (by decide)
    (by
      intro c hc
      simp at hc
      subst hc
      exact ⟨by simp, by simp⟩)

/-! ### Stable descending sort of scored candidate edges

`L.sort(key=lambda tup: tup[2], reverse=True)` is a stable sort by
decreasing mutual-information key; we model it by insertion sort where an
element is placed before the first element of strictly smaller key, which
keeps ties in original order exactly like Python's stable sort. -/

noncomputable def insertDesc (x : ℕ × ℕ × ℝ) :
    List (ℕ × ℕ × ℝ) → List (ℕ × ℕ × ℝ)
  | [] => [x]
  | y :: ys => if x.2.2 < y.2.2 then y :: insertDesc x ys else x :: y :: ys

noncomputable def sortDesc (l : List (ℕ × ℕ × ℝ)) : List (ℕ × ℕ × ℝ) :=
  l.foldr insertDesc []

/-- Sortedness by non-increasing key. -/
def SortedDesc (l : List (ℕ × ℕ × ℝ)) : Prop :=
  l.Pairwise (fun a b => b.2.2 ≤ a.2.2)

lemma insertDesc_nil (x : ℕ × ℕ × ℝ) : insertDesc x [] = [x] := rfl

lemma insertDesc_cons (x y : ℕ × ℕ × ℝ) (ys : List (ℕ × ℕ × ℝ)) :
    insertDesc x (y :: ys) =
      if x.2.2 < y.2.2 then y :: insertDesc x ys else x :: y :: ys := rfl

lemma mem_insertDesc {x z : ℕ × ℕ × ℝ} :
    ∀ {s : List (ℕ × ℕ × ℝ)}, z ∈ insertDesc x s ↔ z = x ∨ z ∈ s := by
  intro s
  induction s with
  | nil => simp [insertDesc_nil]
  | cons y ys ih =>
      rw [insertDesc_cons]
      by_cases h : x.2.2 < y.2.2
      · rw [if_pos h]
        simp only [List.mem_cons, ih]
        tauto
      · rw [if_neg h]
        simp only [List.mem_cons]

lemma insertDesc_sorted {x : ℕ × ℕ × ℝ} :
    ∀ {s : List (ℕ × ℕ × ℝ)}, SortedDesc s → SortedDesc (insertDesc x s) := by
  intro s
  induction s with
  | nil => intro _; simp [insertDesc_nil, SortedDesc]
  | cons y ys ih =>
      intro hs
      rcases List.pairwise_cons.mp hs with ⟨hy, hys⟩
      rw [insertDesc_cons]
      by_cases h : x.2.2 < y.2.2
      · rw [if_pos h]
        refine List.pairwise_cons.mpr ⟨?_, ih hys⟩
        intro z hz
        rcases mem_insertDesc.mp hz with hzx | hzs
        · subst hzx; exact le_of_lt h
        · exact hy z hzs
      · rw [if_neg h]
        refine List.pairwise_cons.mpr ⟨?_, hs⟩
        intro z hz
        rcases List.mem_cons.mp hz with hzy | hzs
        · subst hzy; exact le_of_not_lt h
        · exact le_trans (hy z hzs) (le_of_not_lt h)

lemma sortDesc_sorted (l : List (ℕ × ℕ × ℝ)) : SortedDesc (sortDesc l) := by
  induction l with
  | nil => simp [sortDesc, SortedDesc]
  | cons x xs ih => exact insertDesc_sorted ih

lemma filter_insertDesc (p : ℕ × ℕ × ℝ → Bool) (x : ℕ × ℕ × ℝ) :
    ∀ (s : List (ℕ × ℕ × ℝ)), SortedDesc s →
      (insertDesc x s).filter p =
        if p x = true then insertDesc x (s.filter p) else s.filter p := by
  intro s
  induction s with
  | nil =>
      intro _
      by_cases hpx : p x = true
      · simp [insertDesc, hpx]
      · simp [insertDesc, List.filter_cons, hpx]
  | cons y ys ih =>
      intro hs
      rcases List.pairwise_cons.mp hs with ⟨hy, hys⟩
      rw [insertDesc_cons]
      by_cases h : x.2.2 < y.2.2
      · rw [if_pos h]
        by_cases hpy : p y = true
        · by_cases hpx : p x = true
          · rw [if_pos hpx]
            rw [List.filter_cons_of_pos hpy, List.filter_cons_of_pos hpy,
              ih hys, if_pos hpx, insertDesc_cons, if_pos h]
          · rw [if_neg hpx]
            rw [List.filter_cons_of_pos hpy, List.filter_cons_of_pos hpy,
              ih hys, if_neg hpx]
        · rw [List.filter_cons_of_neg hpy, List.filter_cons_of_neg hpy, ih hys]
      · rw [if_neg h]
        by_cases hpx : p x = true
        · rw [if_pos hpx, List.filter_cons_of_pos hpx]
          by_cases hpy : p y = true
          · rw [List.filter_cons_of_pos hpy, insertDesc_cons, if_neg h]
          · rw [List.filter_cons_of_neg hpy]
            rcases hf : ys.filter p with _ | ⟨z, zs⟩
            · rw [insertDesc_nil]
            · have hz : z ∈ ys.filter p := by
                rw [hf]; exact List.mem_cons_self _ _
              have hzm : z ∈ ys := (List.mem_filter.mp hz).1
              have hzy : z.2.2 ≤ y.2.2 := hy z hzm
              have hnlt : ¬ x.2.2 < z.2.2 :=
                fun hlt => h (lt_of_lt_of_le hlt hzy)
              rw [insertDesc_cons, if_neg hnlt]
        · rw [if_neg hpx, List.filter_cons_of_neg hpx]

lemma filter_sortDesc (p : ℕ × ℕ × ℝ → Bool) (l : List (ℕ × ℕ × ℝ)) :
    (sortDesc l).filter p = sortDesc (l.filter p) := by
  induction l with
  | nil => simp [sortDesc]
  | cons x xs ih =>
      show (insertDesc x (sortDesc xs)).filter p = sortDesc ((x :: xs).filter p)
      rw [filter_insertDesc p x (sortDesc xs) (sortDesc_sorted xs)]
      by_cases hpx : p x = true
      · rw [if_pos hpx, ih, List.filter_cons_of_pos hpx]
        rfl
      · rw [if_neg hpx, ih, List.filter_cons_of_neg hpx]

/-- On a descending-sorted list, the entries above a threshold form an
initial segment. -/
lemma filter_thresh_initial (e : ℝ) :
    ∀ (s : List (ℕ × ℕ × ℝ)), SortedDesc s →
      ∃ t, s = s.filter (fun z => if e < z.2.2 then true else false) ++ t := by
  intro s
  induction s with
  | nil => exact fun _ => ⟨[], rfl⟩
  | cons y ys ih =>
      intro hs
      rcases List.pairwise_cons.mp hs with ⟨hy, hys⟩
      by_cases hpy : e < y.2.2
      · rcases ih hys with ⟨t, ht⟩
        refine ⟨t, ?_⟩
        rw [List.filter_cons_of_pos (by simp [hpy])]
        calc y :: ys
            = y :: (ys.filter (fun z => if e < z.2.2 then true else false) ++ t) := by
              rw [← ht]
          _ = _ := by simp
      · refine ⟨y :: ys, ?_⟩
        have hnil : (y :: ys).filter
            (fun z => if e < z.2.2 then true else false) = [] := by
          apply List.filter_eq_nil_iff.mpr
          intro a ha
          have hale : a.2.2 ≤ y.2.2 := by
            rcases List.mem_cons.mp ha with h | h
            · subst h; exact le_refl _
            · exact hy a h
          have : ¬ e < a.2.2 := fun hlt =>
            hpy (lt_of_lt_of_le hlt hale)
          simp [this]
        rw [hnil]
        rfl

/-! ### The drafting stage of the constraint-based search -/

/-- All feature pairs `(i, j)` with `i < j` in column order, scored with
their mutual information, exactly as the drafting double loop enumerates
them. -/
noncomputable def allPairs (feats : List (ℕ × List ℤ)) : List (ℕ × ℕ × ℝ) :=
  (List.range feats.length).flatMap (fun i =>
    ((List.range feats.length).drop (i + 1)).map (fun j =>
      ((feats.getD i (0, [])).1, (feats.getD j (0, [])).1,
        mutual_info_score (feats.getD i (0, [])).2 (feats.getD j (0, [])).2)))

/-- The candidate list `L`: scored pairs whose mutual information exceeds
`epsilon` (`if mi > self.epsilon: L.append(...)`). -/
noncomputable def candidatePairs (feats : List (ℕ × List ℤ)) (eps : ℝ) :
    List (ℕ × ℕ × ℝ) :=
  (allPairs feats).filter (fun t => if eps < t.2.2 then true else false)

/-- The drafting stage: build and sort the candidate list, pop the top two
pairs and add their edges unconditionally, then run the connectivity scan
on the remainder.  The two unguarded `L.pop(0)` calls make the stage fail
(Python `IndexError`) when fewer than two candidates exist; this is
modelled by returning `none`. -/
noncomputable def draft (feats : List (ℕ × List ℤ)) (eps : ℝ) :
    Option (Graph × List (ℕ × ℕ × ℝ)) :=
  match sortDesc (candidatePairs feats eps) with
  | a :: b :: rest =>
      some (scanDraft
        (addEdge (addEdge ⟨feats.map Prod.fst, []⟩ a.1 a.2.1) b.1 b.2.1) rest)
  | _ => none

lemma scanDraft_cons (g : Graph) (c : ℕ × ℕ × ℝ) (rest : List (ℕ × ℕ × ℝ)) :
    scanDraft g (c :: rest) =
      if g.edges.length = g.nodes.length + 1 then (g, c :: rest)
      else if hasPath g c.1 c.2.1 then
        ((scanDraft g rest).1, c :: (scanDraft g rest).2)
      else scanDraft (addEdge g c.1 c.2.1) rest := rfl

lemma scanDraft_of_break {g : Graph}
    (h : g.edges.length = g.nodes.length + 1) :
    ∀ l, (scanDraft g l).1 = g := by
  intro l
  cases l with
  | nil => rfl
  | cons c rest =>
      rw [scanDraft_cons, if_pos h]

lemma addEdge_edges_sub (g : Graph) (u v : ℕ) :
    g.edges ⊆ (addEdge g u v).edges := by
  unfold addEdge
  by_cases h : adjacent g u v = true
  · rw [if_pos h]
    exact fun e he => he
  · rw [if_neg h]
    exact List.subset_append_left _ _

lemma scanDraft_edges_mono :
    ∀ (l : List (ℕ × ℕ × ℝ)) (g : Graph), g.edges ⊆ (scanDraft g l).1.edges := by
  intro l
  induction l with
  | nil => intro g; exact fun _ h => h
  | cons c rest ih =>
      intro g
      rw [scanDraft_cons]
      by_cases hb : g.edges.length = g.nodes.length + 1
      · rw [if_pos hb]
        exact fun e he => he
      · rw [if_neg hb]
        by_cases hp : hasPath g c.1 c.2.1 = true
        · rw [if_pos hp]
          exact ih g
        · rw [if_neg hp]
          exact fun e he => ih _ (addEdge_edges_sub g c.1 c.2.1 he)

lemma scanDraft_append (l1 l2 : List (ℕ × ℕ × ℝ)) :
    ∀ (g : Graph),
      (scanDraft g (l1 ++ l2)).1 = (scanDraft (scanDraft g l1).1 l2).1 := by
  induction l1 with
  | nil => intro g; rfl
  | cons c rest ih =>
      intro g
      rw [List.cons_append, scanDraft_cons g c (rest ++ l2),
        scanDraft_cons g c rest]
      by_cases hb : g.edges.length = g.nodes.length + 1
      · rw [if_pos hb, if_pos hb]
        exact (scanDraft_of_break hb l2).symm
      · rw [if_neg hb, if_neg hb]
        by_cases hp : hasPath g c.1 c.2.1 = true
        · rw [if_pos hp, if_pos hp]
          exact ih g
        · rw [if_neg hp, if_neg hp]
          exact ih _

/-- C6: drafting is monotone in the threshold — whenever both drafting
runs succeed and `e1 ≤ e2`, every edge of the skeleton drafted at the
higher threshold `e2` is also an edge of the skeleton drafted at `e1`. -/
theorem C6_drafting_monotone_in_epsilon (feats : List (ℕ × List ℤ))
    (e1 e2 : ℝ) (h12 : e1 ≤ e2) (g1 g2 : Graph)
    (k1 k2 : List (ℕ × ℕ × ℝ))
    (h2 : draft feats e2 = some (g2, k2))
    (h1 : draft feats e1 = some (g1, k1)) :
    ∀ e ∈ g2.edges, e ∈ g1.edges := by
  have hcand : candidatePairs feats e2 =
      (candidatePairs feats e1).filter
        (fun t => if e2 < t.2.2 then true else false) := by
    unfold candidatePairs
    rw [List.filter_filter]
    apply List.filter_congr
    intro a _
    by_cases h : e2 < a.2.2
    · have h' : e1 < a.2.2 := lt_of_le_of_lt h12 h
      simp [h, h']
    · simp [h]
  have hsorted : sortDesc (candidatePairs feats e2) =
      (sortDesc (candidatePairs feats e1)).filter
        (fun t => if e2 < t.2.2 then true else false) := by
    rw [hcand, ← filter_sortDesc]
  rcases filter_thresh_initial e2 (sortDesc (candidatePairs feats e1))
      (sortDesc_sorted _) with ⟨t, ht⟩
  unfold draft at h1 h2
  rcases hs2 : sortDesc (candidatePairs feats e2) with _ | ⟨a, _ | ⟨b, rest⟩⟩
  · rw [hs2] at h2; exact absurd h2 (by simp)
  · rw [hs2] at h2; exact absurd h2 (by simp)
  · rw [hs2] at h2
    have hs1 : sortDesc (candidatePairs feats e1) = a :: b :: (rest ++ t) := by
      have := ht
      rw [← hsorted, hs2] at this
      simpa using this
    rw [hs1] at h1
    simp only [Option.some.injEq] at h1 h2
    have hg2 : g2 = (scanDraft
        (addEdge (addEdge ⟨feats.map Prod.fst, []⟩ a.1 a.2.1) b.1 b.2.1)
        rest).1 := by
      rw [h2]
    have hg1 : g1 = (scanDraft
        (addEdge (addEdge ⟨feats.map Prod.fst, []⟩ a.1 a.2.1) b.1 b.2.1)
        (rest ++ t)).1 := by
      rw [h1]
    rw [hg1, scanDraft_append, ← hg2]
    exact fun e he => scanDraft_edges_mono t g2 he

/-! ### Concrete evaluations of the scorer -/

lemma mi_log_two : mutual_info_score [3, 7] [3, 7] = Real.log 2 := by
  simp only [mutual_info_score]
  norm_num [List.zip, List.zipWith, List.count_cons, List.count_nil,
    List.dedup_cons_of_not_mem, Prod.mk.injEq]
  ring

lemma mi_const_col : mutual_info_score [3, 7] [3, 3] = 0 := by
  simp only [mutual_info_score]
  norm_num [List.zip, List.zipWith, List.count_cons, List.count_nil,
    List.dedup_cons_of_not_mem, Prod.mk.injEq]

lemma mi_single_three : mutual_info_score [3] [3] = 0 := by
  simp only [mutual_info_score]
  norm_num [List.zip, List.zipWith, List.count_cons, List.count_nil,
    List.dedup_cons_of_not_mem, Prod.mk.injEq]

lemma mi_single_seven : mutual_info_score [7] [7] = 0 := by
  simp only [mutual_info_score]
  norm_num [List.zip, List.zipWith, List.count_cons, List.count_nil,
    List.dedup_cons_of_not_mem, Prod.mk.injEq]

lemma eps_lt_log_two : (3 / 1000 : ℝ) < Real.log 2 := by
  have h := Real.log_two_gt_d9
  linarith

/-- A three-feature table whose columns are pairwise identical copies of
`[3, 7]`: every feature pair has mutual information `log 2`. -/
def featsIII : List (ℕ × List ℤ) := [(0, [3, 7]), (1, [3, 7]), (2, [3, 7])]

lemma allPairs_featsIII :
    allPairs featsIII =
      [(0, 1, mutual_info_score [3, 7] [3, 7]),
       (0, 2, mutual_info_score [3, 7] [3, 7]),
       (1, 2, mutual_info_score [3, 7] [3, 7])] := rfl

lemma candidatePairs_featsIII :
    candidatePairs featsIII (3 / 1000) =
      [(0, 1, Real.log 2), (0, 2, Real.log 2), (1, 2, Real.log 2)] := by
  unfold candidatePairs
  rw [allPairs_featsIII, mi_log_two]
  simp [List.filter, eps_lt_log_two]

lemma sortDesc_featsIII :
    sortDesc [((0 : ℕ), (1 : ℕ), Real.log 2), (0, 2, Real.log 2),
      (1, 2, Real.log 2)] =
      [(0, 1, Real.log 2), (0, 2, Real.log 2), (1, 2, Real.log 2)] := by
  simp [sortDesc, insertDesc_cons, insertDesc_nil, lt_irrefl]

/-- Concrete run of the drafting stage on `featsIII` at the default
threshold: the top two pairs are added, the third candidate is rejected
(its endpoints are already connected through node 0) and kept. -/
lemma draft_featsIII :
    draft featsIII (3 / 1000) =
      some (⟨[0, 1, 2], [(0, 1), (0, 2)]⟩, [(1, 2, Real.log 2)]) := by
  unfold draft
  rw [candidatePairs_featsIII, sortDesc_featsIII]
  show some (scanDraft
    (addEdge (addEdge ⟨[0, 1, 2], []⟩ 0 1) 0 2) [(1, 2, Real.log 2)]) = _
  rw [show addEdge (addEdge ⟨[0, 1, 2], []⟩ 0 1) 0 2 =
    ⟨[0, 1, 2], [(0, 1), (0, 2)]⟩ from rfl]
  rw [scanDraft_cons]
  rw [if_neg (by decide), if_pos (by decide)]
  rfl

/-- Witness for C6 at the concrete table `featsIII` with both thresholds
equal to the default. -/
theorem C6_witness :
    (3 / 1000 : ℝ) ≤ 3 / 1000 ∧
      draft featsIII (3 / 1000) =
        some (⟨[0, 1, 2], [(0, 1), (0, 2)]⟩, [(1, 2, Real.log 2)]) ∧
      (∀ e ∈ (Graph.edges ⟨[0, 1, 2], [(0, 1), (0, 2)]⟩),
        e ∈ (Graph.edges ⟨[0, 1, 2], [(0, 1), (0, 2)]⟩)) :=
  ⟨le_refl _, draft_featsIII,
    C6_drafting_monotone_in_epsilon featsIII (3 / 1000) (3 / 1000)
      (le_refl _) _ _ _ _ draft_featsIII draft_featsIII⟩

/-! ### Separation test A (`try_to_separate_a`) -/

/-- Column lookup by name (`self.data[node]`). -/
def getCol (table : List (ℕ × List ℤ)) (n : ℕ) : List ℤ :=
  ((table.find? (fun c => c.1 == n)).map Prod.snd).getD []

/-- Model of `networkx.all_simple_paths`: all simple paths from `u` to the
target, endpoints included, enumerated depth-first in neighbor order. -/
def simplePathsAux (g : Graph) : ℕ → ℕ → ℕ → List ℕ → List (List ℕ)
  | 0, _, _, _ => []
  | fuel + 1, u, target, visited =>
      if u = target then [[u]]
      else ((neighbors g u).filter (fun w => decide (w ∉ visited))).flatMap
        (fun w => (simplePathsAux g fuel w target (u :: visited)).map (u :: ·))

def simplePaths (g : Graph) (u v : ℕ) : List (List ℕ) :=
  simplePathsAux g (g.nodes.length + 1) u v []

/-- The fixed data of one `try_to_separate_a` call: the table, the
threshold, the working graph, the two nodes under test and the fallback
neighbor set `n2`. -/
structure SepCtx where
  table : List (ℕ × List ℤ)
  eps : ℝ
  g : Graph
  node1 : ℕ
  node2 : ℕ
  n2 : List ℕ

/-- `conditional_mutual_info_score(self.data[node1], self.data[node2],
self.data[c])` for a list `c` of column names. -/
noncomputable def condBy (ctx : SepCtx) (names : List ℕ) : ℝ :=
  conditional_mutual_info_score (getCol ctx.table ctx.node1)
    (getCol ctx.table ctx.node2) (names.map (getCol ctx.table))

/-- The mutable state of the `while True` loop of `try_to_separate_a`. -/
structure AState where
  c : List ℕ
  v : ℝ
  skip : Bool
  n2used : Bool

/-- The candidate conditioning sets evaluated by the shrink step: the
source iterates `for node in graph.nodes` (not over `c`!) and builds
`ci = [n for n in c if n != node]` for each graph node. -/
def shrinkConditions (nodes c : List ℕ) : List (List ℕ) :=
  nodes.map (fun node => c.filter (fun n => n != node))

/-- Model of `np.argmin`: index of the first minimal entry (0 on an empty
list; the source would raise there). -/
noncomputable def argminAux : List ℝ → ℕ → ℕ → ℝ → ℕ
  | [], _, bi, _ => bi
  | x :: xs, i, bi, bv =>
      if x < bv then argminAux xs (i + 1) i x else argminAux xs (i + 1) bi bv

noncomputable def argminIdx : List ℝ → ℕ
  | [] => 0
  | x :: xs => argminAux xs 1 0 x

/-- Result of one loop iteration: either the function returns `b`, or the
loop continues in a new state. -/
inductive StepRes
  | done (b : Bool)
  | next (s : AState)

/-- One iteration of the `while True` loop of `try_to_separate_a`,
translated clause by clause: unless `skip_step` is set, recompute `v` and
return `True` when it falls below epsilon; a singleton conditioning set
switches to the other neighbor set (once) or fails; otherwise evaluate one
candidate per graph node (`shrinkConditions`), take the first argmin, and
return separated / switch / shrink accordingly. -/
noncomputable def stepA (ctx : SepCtx) (s : AState) : StepRes :=
  if s.skip = false ∧ condBy ctx s.c < ctx.eps then .done true
  else
    let v := if s.skip = true then s.v else condBy ctx s.c
    if s.c.length = 1 then
      if s.n2used = false then .next ⟨ctx.n2, v, false, true⟩
      else .done false
    else
      let conds := shrinkConditions ctx.g.nodes s.c
      let vals := conds.map (condBy ctx)
      let m := argminIdx vals
      let vm := vals.getD m 0
      let cm := conds.getD m []
      if vm < ctx.eps then .done true
      else if v < vm then
        if s.n2used = false then .next ⟨ctx.n2, v, false, true⟩
        else .done false
      else .next ⟨cm, vm, true, s.n2used⟩

/-- The loop, with fuel: `none` models an execution that has not returned
within `fuel` iterations (in particular any diverging execution). -/
noncomputable def runA (ctx : SepCtx) : ℕ → AState → Option Bool
  | 0, _ => none
  | fuel + 1, s =>
      match stepA ctx s with
      | .done b => some b
      | .next s' => runA ctx fuel s'

/-- `BNAugmentedNaiveBayesSearch.try_to_separate_a`: collect the
neighbor-of-node1 / neighbor-of-node2 nodes occurring as intermediate
nodes of simple paths, start from the smaller set, and iterate. -/
noncomputable def try_to_separate_a (table : List (ℕ × List ℤ)) (eps : ℝ)
    (fuel : ℕ) (g : Graph) (node1 node2 : ℕ) : Option Bool :=
  let nbrs1 := neighbors g node1
  let nbrs2 := neighbors g node2
  let paths := simplePaths g node1 node2
  let n1 := paths.flatMap (fun p =>
    ((p.drop 1).dropLast).filter (fun x => decide (x ∈ nbrs1)))
  let n2 := paths.flatMap (fun p =>
    ((p.drop 1).dropLast).filter (fun x => decide (x ∈ nbrs2)))
  let c0 := if n2.length < n1.length then n2 else n1
  let other := if n2.length < n1.length then n1 else n2
  runA ⟨table, eps, g, node1, node2, other⟩ fuel ⟨c0, 0, false, false⟩

lemma runA_none_of_fix {ctx : SepCtx} {s : AState}
    (h : stepA ctx s = .next s) : ∀ fuel, runA ctx fuel s = none := by
  intro fuel
  induction fuel with
  | zero => rfl
  | succ n ih =>
      show (match stepA ctx s with
        | .done b => some b
        | .next s' => runA ctx n s') = none
      rw [h]
      exact ih

/-! ### C5: non-termination of `try_to_separate_a` -/

/-- Two isolated nodes: no simple path joins them, so both neighbor sets
(and hence the initial conditioning set) are empty. -/
def graphV : Graph := ⟨[0, 1], []⟩

/-- Perfectly correlated columns for the two nodes: their mutual
information is `log 2`, far above the default threshold. -/
def tableV : List (ℕ × List ℤ) := [(0, [3, 7]), (1, [3, 7])]

noncomputable def ctxV : SepCtx := ⟨tableV, 3 / 1000, graphV, 0, 1, []⟩

lemma condBy_ctxV_nil : condBy ctxV [] = Real.log 2 := by
  show conditional_mutual_info_score (getCol tableV 0) (getCol tableV 1)
    ([].map (getCol tableV)) = _
  rw [show getCol tableV 0 = [3, 7] from rfl,
    show getCol tableV 1 = [3, 7] from rfl]
  show conditional_mutual_info_score [3, 7] [3, 7] [] = _
  unfold conditional_mutual_info_score
  rw [if_pos (show ([] : List (List ℤ)).length = 0 from rfl)]
  exact mi_log_two

lemma not_log_two_lt_eps : ¬ (Real.log 2 < (3 / 1000 : ℝ)) :=
  not_lt.mpr eps_lt_log_two.le

lemma stepA_ctxV_fix :
    stepA ctxV ⟨[], Real.log 2, true, false⟩ =
      .next ⟨[], Real.log 2, true, false⟩ := by
  have hg : ctxV.g = graphV := rfl
  have he : ctxV.eps = 3 / 1000 := rfl
  unfold stepA
  simp [hg, he, graphV, shrinkConditions, condBy_ctxV_nil, argminIdx,
    argminAux, not_log_two_lt_eps]

lemma stepA_ctxV_first :
    stepA ctxV ⟨[], 0, false, false⟩ = .next ⟨[], Real.log 2, true, false⟩ := by
  have hg : ctxV.g = graphV := rfl
  have he : ctxV.eps = 3 / 1000 := rfl
  unfold stepA
  simp [hg, he, graphV, shrinkConditions, condBy_ctxV_nil, argminIdx,
    argminAux, not_log_two_lt_eps]

/-- C5: `try_to_separate_a` does not terminate for every working graph and
node pair.  On two isolated nodes with correlated columns the neighbor
sets are empty, the conditioning set starts empty, and the shrink step
reproduces the same state forever (`ci = c` for every graph node), so the
loop never returns however much fuel it is given. -/
theorem C5_try_to_separate_a_nonterminating :
    ∀ fuel : ℕ, try_to_separate_a tableV (3 / 1000) fuel graphV 0 1 = none := by
  intro fuel
  have hrun : try_to_separate_a tableV (3 / 1000) fuel graphV 0 1 =
      runA ctxV fuel ⟨[], 0, false, false⟩ := rfl
  rw [hrun]
  cases fuel with
  | zero => rfl
  | succ n =>
      show (match stepA ctxV ⟨[], 0, false, false⟩ with
        | .done b => some b
        | .next s' => runA ctxV n s') = none
      rw [stepA_ctxV_first]
      exact runA_none_of_fix stepA_ctxV_fix n

/-! ### C3: the candidate sets of the shrink step -/

/-- What the claim asserts the shrink step evaluates: exactly the
single-node removals of `C`, one candidate per member of `C`. -/
def singleRemovals (c : List ℕ) : List (List ℕ) :=
  c.map (fun m => c.filter (fun n => n != m))

/-- C3 counterexample: on the working graph with nodes `[0, 1, 2, 3]` and
conditioning set `[2, 3]`, the code's candidate list (one candidate per
graph node, containing `C` itself twice for the two non-members) differs
from the claimed single-node removals of `C`. -/
theorem C3_counterexample :
    shrinkConditions [0, 1, 2, 3] [2, 3] ≠ singleRemovals [2, 3] := by
  decide

lemma argminAux_bound (G : ℕ → ℝ) :
    ∀ (l : List ℝ) (i bi : ℕ) (bv : ℝ), G bi = bv →
      (∀ j, j < l.length → G (i + j) = l.getD j 0) →
      G (argminAux l i bi bv) ≤ bv ∧
        ∀ j, j < l.length → G (argminAux l i bi bv) ≤ l.getD j 0 := by
  intro l
  induction l with
  | nil =>
      intro i bi bv hbv _
      refine ⟨le_of_eq hbv, ?_⟩
      intro j hj
      simp at hj
  | cons x xs ih =>
      intro i bi bv hbv hl
      have hx : G i = x := by
        have := hl 0 (by simp)
        simpa using this
      have hl' : ∀ j, j < xs.length → G (i + 1 + j) = xs.getD j 0 := by
        intro j hj
        have := hl (j + 1) (by simp; omega)
        calc G (i + 1 + j) = G (i + (j + 1)) := by ring_nf
          _ = (x :: xs).getD (j + 1) 0 := this
          _ = xs.getD j 0 := rfl
      have hstep : argminAux (x :: xs) i bi bv =
          if x < bv then argminAux xs (i + 1) i x
          else argminAux xs (i + 1) bi bv := rfl
      rw [hstep]
      by_cases hc : x < bv
      · rw [if_pos hc]
        rcases ih (i + 1) i x hx hl' with ⟨h1, h2⟩
        refine ⟨le_trans h1 (le_of_lt hc), ?_⟩
        intro j hj
        cases j with
        | zero => simpa using h1
        | succ j' =>
            have hj' : j' < xs.length := by simp at hj; omega
            have := h2 j' hj'
            simpa using this
      · rw [if_neg hc]
        rcases ih (i + 1) bi bv hbv hl' with ⟨h1, h2⟩
        refine ⟨h1, ?_⟩
        intro j hj
        cases j with
        | zero =>
            have : G (argminAux xs (i + 1) bi bv) ≤ bv := h1
            simpa using le_trans this (le_of_not_lt hc)
        | succ j' =>
            have hj' : j' < xs.length := by simp at hj; omega
            have := h2 j' hj'
            simpa using this

/-- The first-argmin entry is a minimum of the list. -/
lemma argminIdx_le (l : List ℝ) :
    ∀ j, j < l.length → l.getD (argminIdx l) 0 ≤ l.getD j 0 := by
  cases l with
  | nil => intro j hj; simp at hj
  | cons x xs =>
      intro j hj
      have hbase : (x :: xs).getD 0 0 = x := rfl
      have hrest : ∀ j', j' < xs.length →
          (x :: xs).getD (1 + j') 0 = xs.getD j' 0 := by
        intro j' _
        have : 1 + j' = j' + 1 := by omega
        rw [this]
        rfl
      rcases argminAux_bound (fun k => (x :: xs).getD k 0) xs 1 0 x hbase
          hrest with ⟨h1, h2⟩
      show (x :: xs).getD (argminAux xs 1 0 x) 0 ≤ _
      cases j with
      | zero => exact h1
      | succ j' =>
          have hj' : j' < xs.length := by simp at hj; omega
          exact h2 j' hj'

/-- C3 (amended): unless the iteration returns early, and whenever
`|C| ≠ 1`, the shrink step evaluates one candidate per node of the working
graph — `C` with every occurrence of that node deleted, which is `C`
itself for graph nodes outside `C` — takes the first candidate attaining
the minimal conditional mutual information, declares separation when that
minimum is below epsilon, switches neighbor sets or fails when it exceeds
the current value, and otherwise shrinks `C` to the selected candidate and
repeats with the value check skipped. -/
theorem C3_amended_shrink_step (ctx : SepCtx) (s : AState)
    (hne : ¬ (s.skip = false ∧ condBy ctx s.c < ctx.eps))
    (hlen : s.c.length ≠ 1) :
    (∀ node ∈ ctx.g.nodes, node ∉ s.c →
      s.c.filter (fun n => n != node) = s.c) ∧
    (∀ j, j < (shrinkConditions ctx.g.nodes s.c).length →
      ((shrinkConditions ctx.g.nodes s.c).map (condBy ctx)).getD
          (argminIdx ((shrinkConditions ctx.g.nodes s.c).map (condBy ctx))) 0 ≤
        ((shrinkConditions ctx.g.nodes s.c).map (condBy ctx)).getD j 0) ∧
    stepA ctx s =
      (let vals := (shrinkConditions ctx.g.nodes s.c).map (condBy ctx)
       let m := argminIdx vals
       let vm := vals.getD m 0
       let v := if s.skip = true then s.v else condBy ctx s.c
       if vm < ctx.eps then StepRes.done true
       else if v < vm then
         (if s.n2used = false then StepRes.next ⟨ctx.n2, v, false, true⟩
          else StepRes.done false)
       else StepRes.next
         ⟨(shrinkConditions ctx.g.nodes s.c).getD m [], vm, true, s.n2used⟩) := by
  refine ⟨?_, ?_, ?_⟩
  · intro node _ hnode
    apply List.filter_eq_self.mpr
    intro a ha
    simp only [bne_iff_ne, ne_eq, decide_eq_true_eq]
    intro h
    subst h
    exact hnode ha
  · intro j hj
    exact argminIdx_le _ j (by simpa using hj)
  · unfold stepA
    rw [if_neg hne, if_neg hlen]

/-- Witness for C3 (amended) at a concrete skip-state with `|C| = 2`. -/
theorem C3_witness :
    (¬ (((⟨[2, 3], 0, true, false⟩ : AState).skip = false ∧
        condBy ⟨[], 0, ⟨[0, 1, 2, 3], []⟩, 0, 0, []⟩
          (⟨[2, 3], 0, true, false⟩ : AState).c <
          (⟨[], 0, ⟨[0, 1, 2, 3], []⟩, 0, 0, []⟩ : SepCtx).eps))) ∧
    ((⟨[2, 3], 0, true, false⟩ : AState).c.length ≠ 1) ∧
    (∀ node ∈ (Graph.nodes ⟨[0, 1, 2, 3], []⟩),
      node ∉ ([2, 3] : List ℕ) →
        ([2, 3] : List ℕ).filter (fun n => n != node) = [2, 3]) := by
  have h1 : ¬ (((⟨[2, 3], 0, true, false⟩ : AState).skip = false ∧
      condBy ⟨[], 0, ⟨[0, 1, 2, 3], []⟩, 0, 0, []⟩
        (⟨[2, 3], 0, true, false⟩ : AState).c <
        (⟨[], 0, ⟨[0, 1, 2, 3], []⟩, 0, 0, []⟩ : SepCtx).eps)) := by
    intro h
    exact absurd h.1 (by decide)
  have h2 : ((⟨[2, 3], 0, true, false⟩ : AState).c.length ≠ 1) := by decide
  exact ⟨h1, h2,
    (C3_amended_shrink_step ⟨[], 0, ⟨[0, 1, 2, 3], []⟩, 0, 0, []⟩
      ⟨[2, 3], 0, true, false⟩ h1 h2).1⟩

/-! ### Separation test B (`try_to_separate_b`) and the prime sets -/

/-- Python `==` between an int/str node and a list is always `False`
(no error, just unequal types). -/
def pyEqIntList (_ : ℕ) (_ : List ℕ) : Bool := false

/-- Python `node in n_neighbors` where `n_neighbors` is a list of
neighbor *lists*: membership compares the node with each inner list, so
it never holds. -/
def pyMemListOfLists (node : ℕ) (ls : List (List ℕ)) : Bool :=
  ls.any (fun l => pyEqIntList node l)

/-- The `n1` (resp. `n2`) collection shared by both separation tests:
intermediate nodes of simple paths between the two endpoints that are
neighbors of `node`. -/
def pathNbrs (g : Graph) (node1 node2 node : ℕ) : List ℕ :=
  (simplePaths g node1 node2).flatMap (fun p =>
    ((p.drop 1).dropLast).filter (fun x => decide (x ∈ neighbors g node)))

/-- `n1_prime` exactly as the source computes it: for every intermediate
path node, test `node in n1_neighbors and node not in n1`, where
`n1_neighbors = [list(nx.neighbors(graph, n)) for n in n1]` is a list of
lists — so the first conjunct is Python's always-false int-vs-list
comparison. -/
def n1PrimeCode (g : Graph) (node1 node2 : ℕ) (n1 : List ℕ) : List ℕ :=
  let n1_neighbors := n1.map (fun n => neighbors g n)
  (simplePaths g node1 node2).flatMap (fun p =>
    ((p.drop 1).dropLast).filter
      (fun node => pyMemListOfLists node n1_neighbors && decide (node ∉ n1)))

/-- Modelled from the spec: the intended prime set — intermediate
simple-path nodes that are neighbors of some member of `n1` and are not
already in `n1` (the source's `n1_prime` computation was meant to flatten
the neighbor lists). -/
def n1PrimeSpec (g : Graph) (node1 node2 : ℕ) (n1 : List ℕ) : List ℕ :=
  (simplePaths g node1 node2).flatMap (fun p =>
    ((p.drop 1).dropLast).filter
      (fun node => n1.any (fun m => decide (node ∈ neighbors g m)) &&
        decide (node ∉ n1)))

lemma n1PrimeCode_nil (g : Graph) (node1 node2 : ℕ) (n1 : List ℕ) :
    n1PrimeCode g node1 node2 n1 = [] := by
  unfold n1PrimeCode
  simp [pyMemListOfLists, pyEqIntList]

/-- Outcome of the removal pass inside one `try_to_separate_b`
iteration. -/
inductive BRes
  | ret (b : Bool)
  | cont (cp : List ℕ)

/-- The `for i in c` removal pass of `try_to_separate_b`: an immediate
`True` when a removal drops below epsilon, otherwise members whose removal
stays within epsilon of the current value are erased (first occurrence)
from `c_prime`. -/
noncomputable def removalsB (ctx : SepCtx) (c : List ℕ) (v : ℝ) :
    List ℕ → List ℕ → BRes
  | [], cp => .cont cp
  | i :: rest, cp =>
      let ci := c.filter (fun n => n != i)
      let vi := condBy ctx ci
      if vi < ctx.eps then .ret true
      else if vi ≤ v + ctx.eps ∧ i ∈ cp then
        removalsB ctx c v rest (cp.erase i)
      else removalsB ctx c v rest cp

/-- The `while True` loop of `try_to_separate_b`: separated when the
current score is below epsilon, else run the removal pass; continue on a
strictly smaller `c_prime`, otherwise fail. -/
noncomputable def runB (ctx : SepCtx) : ℕ → List ℕ → Option Bool
  | 0, _ => none
  | fuel + 1, c =>
      if condBy ctx c < ctx.eps then some true
      else
        match removalsB ctx c (condBy ctx c) c c with
        | .ret b => some b
        | .cont cp =>
            if cp.length < c.length then runB ctx fuel cp else some false

/-- `BNAugmentedNaiveBayesSearch.try_to_separate_b`: build `n1`, `n2` and
their (as coded, always empty) prime sets, pick the smaller combined set
as the initial conditioning set, and iterate. -/
noncomputable def try_to_separate_b (table : List (ℕ × List ℤ)) (eps : ℝ)
    (fuel : ℕ) (g : Graph) (node1 node2 : ℕ) : Option Bool :=
  let n1 := pathNbrs g node1 node2 node1
  let n2 := pathNbrs g node1 node2 node2
  let n1p := n1PrimeCode g node1 node2 n1
  let n2p := n1PrimeCode g node1 node2 n2
  let c0 := if n1.length + n1p.length < n2.length + n2p.length
    then n1 ++ n1p else n2 ++ n2p
  runB ⟨table, eps, g, node1, node2, []⟩ fuel c0

/-- The path `0 — 2 — 3 — 1`: node 3 is a path-neighbor of `n1 = [2]` and
should belong to the prime set. -/
def graphP : Graph := ⟨[0, 1, 2, 3], [(0, 2), (2, 3), (3, 1)]⟩

/-- C4: on the failing input `graphP` with endpoints 0 and 1, the source's
`n1` is `[2]` and its prime set comes out empty, although the intended
prime set (spec: path-neighbors of members of `n1` not already in `n1`)
is `[3]` — the int-vs-list membership test never succeeds, so the prime
sets never contribute to the conditioning set. -/
theorem C4_prime_set_divergence :
    pathNbrs graphP 0 1 0 = [2] ∧
      n1PrimeCode graphP 0 1 (pathNbrs graphP 0 1 0) = [] ∧
      n1PrimeSpec graphP 0 1 (pathNbrs graphP 0 1 0) = [3] := by
  refine ⟨by decide, n1PrimeCode_nil _ _ _ _, by decide⟩

/-! ### C9: the scorer performs no length validation -/

/-- C9: called with a 2-row target pair and a 3-row conditioning column,
`conditional_mutual_info_score` does not fail fast — it proceeds and
returns a numeric score (here `1 · MI(X, Y) = log 2`, with rows aligned
positionally as far as they go). -/
theorem C9_scorer_computes_despite_mismatch :
    conditional_mutual_info_score [3, 7] [3, 7] [[5, 5, 5]] = Real.log 2 := by
  unfold conditional_mutual_info_score
  rw [if_neg (by decide : ¬ ([[5, 5, 5]] : List (List ℤ)).length = 0)]
  rw [List.foldl_cons, List.foldl_nil]
  rw [show uniques [5, 5, 5] = [5] from rfl]
  rw [List.foldl_cons, List.foldl_nil]
  rw [show restrict [3, 7] [5, 5, 5] 5 = [3, 7] from rfl]
  rw [mi_log_two]
  norm_num

/-! ### Directed graphs and search trees -/

/-- A directed graph (model of `networkx.DiGraph` / the output DAG). -/
structure DiGraph where
  nodes : List ℕ
  edges : List (ℕ × ℕ)
deriving DecidableEq, Repr

/-- Model of `DiGraph.add_edge`: no-op on an existing edge, missing
endpoints are added. -/
def addDirEdge (d : DiGraph) (u v : ℕ) : DiGraph :=
  let ns1 := if u ∈ d.nodes then d.nodes else d.nodes ++ [u]
  let ns2 := if v ∈ ns1 then ns1 else ns1 ++ [v]
  ⟨ns2, if (u, v) ∈ d.edges then d.edges else d.edges ++ [(u, v)]⟩

/-- Reachability along directed edges. -/
def dirReach (es : List (ℕ × ℕ)) (u v : ℕ) : Prop :=
  Relation.ReflTransGen (fun a b => (a, b) ∈ es) u v

lemma dirReach_mono {es es' : List (ℕ × ℕ)} (h : es ⊆ es') {u v : ℕ}
    (hr : dirReach es u v) : dirReach es' u v := by
  induction hr with
  | refl => exact Relation.ReflTransGen.refl
  | tail _ hab ih => exact Relation.ReflTransGen.tail ih (h hab)

/-- Generic mark-on-discovery traversal producing the visit list and the
tree edges; `df = true` pushes new nodes on the front of the worklist
(depth-first), `df = false` appends them (breadth-first).  Models
`networkx.bfs_tree` / `networkx.dfs_tree`, whose exact child order is
irrelevant to every property used here. -/
def traverseAux (g : Graph) (df : Bool) :
    ℕ → List ℕ → List ℕ → List (ℕ × ℕ) → List ℕ × List (ℕ × ℕ)
  | 0, _, vis, es => (vis, es)
  | _ + 1, [], vis, es => (vis, es)
  | fuel + 1, u :: front, vis, es =>
      let ws := (neighbors g u).foldl
        (fun acc w => if w ∈ vis ∨ w ∈ acc then acc else acc ++ [w]) []
      traverseAux g df fuel (if df then ws ++ front else front ++ ws)
        (vis ++ ws) (es ++ ws.map (fun w => (u, w)))

def traverse (g : Graph) (root : ℕ) (df : Bool) : List ℕ × List (ℕ × ℕ) :=
  traverseAux g df (g.nodes.length + 1) [root] [root] []

lemma nodup_subset_length_le {s t : List ℕ} (hs : s.Nodup) (hsub : s ⊆ t) :
    s.length ≤ t.length := by
  calc s.length = s.toFinset.card := (List.toFinset_card_of_nodup hs).symm
    _ ≤ t.toFinset.card := Finset.card_le_card
        (fun x hx => List.mem_toFinset.mpr (hsub (List.mem_toFinset.mp hx)))
    _ ≤ t.length := t.toFinset_card_le

lemma neighbors_mem_nodes {g : Graph} (hwf : WF g) {u w : ℕ}
    (h : w ∈ neighbors g u) : w ∈ g.nodes := by
  unfold neighbors at h
  rcases List.mem_filterMap.mp h with ⟨e, he, hval⟩
  rcases hwf.2 e he with ⟨h1, h2⟩
  by_cases hfst : e.1 = u
  · rw [if_pos hfst] at hval
    exact Option.some.inj hval ▸ h2
  · rw [if_neg hfst] at hval
    by_cases hsnd : e.2 = u
    · rw [if_pos hsnd] at hval
      exact Option.some.inj hval ▸ h1
    · rw [if_neg hsnd] at hval
      exact absurd hval (by simp)

lemma neighbors_adjP {g : Graph} {u w : ℕ} (h : w ∈ neighbors g u) :
    adjP g u w := by
  unfold neighbors at h
  rcases List.mem_filterMap.mp h with ⟨e, he, hval⟩
  by_cases hfst : e.1 = u
  · rw [if_pos hfst] at hval
    exact adjacent_iff.mpr ⟨e, he, Or.inl ⟨hfst, Option.some.inj hval⟩⟩
  · rw [if_neg hfst] at hval
    by_cases hsnd : e.2 = u
    · rw [if_pos hsnd] at hval
      exact adjacent_iff.mpr ⟨e, he, Or.inr ⟨Option.some.inj hval, hsnd⟩⟩
    · rw [if_neg hsnd] at hval
      exact absurd hval (by simp)

lemma adjP_mem_neighbors {g : Graph} {u w : ℕ} (h : adjP g u w) :
    w ∈ neighbors g u := by
  rcases adjacent_iff.mp h with ⟨e, he, horient⟩
  unfold neighbors
  apply List.mem_filterMap.mpr
  refine ⟨e, he, ?_⟩
  rcases horient with ⟨h1, h2⟩ | ⟨h1, h2⟩
  · rw [if_pos h1, h2]
  · by_cases hfst : e.1 = u
    · rw [if_pos hfst, h2, ← hfst, h1]
    · rw [if_neg hfst, if_pos h2, h1]

lemma indexOf_append_left {a : ℕ} :
    ∀ (l l2 : List ℕ), a ∈ l → (l ++ l2).indexOf a = l.indexOf a := by
  intro l l2 h
  induction l with
  | nil => simp at h
  | cons b bs ih =>
      by_cases hab : b = a
      · subst hab
        simp [List.indexOf_cons_self]
      · rw [List.cons_append, List.indexOf_cons_ne _ (by simpa using hab),
          List.indexOf_cons_ne _ (by simpa using hab)]
        have : a ∈ bs := by
          rcases List.mem_cons.mp h with h' | h'
          · exact absurd h'.symm hab
          · exact h'
        rw [ih this]

lemma indexOf_append_right {a : ℕ} :
    ∀ (l l2 : List ℕ), a ∉ l → (l ++ l2).indexOf a = l.length + l2.indexOf a := by
  intro l l2 h
  induction l with
  | nil => simp
  | cons b bs ih =>
      have hab : b ≠ a := fun hba => h (hba ▸ List.mem_cons_self _ _)
      rw [List.cons_append, List.indexOf_cons_ne _ (by simpa using hab)]
      have : a ∉ bs := fun h' => h (List.mem_cons_of_mem _ h')
      rw [ih this]
      simp [List.length_cons]
      omega

/-- The fresh-neighbor collector of one traversal step. -/
def collectFresh (vis l : List ℕ) : List ℕ :=
  l.foldl (fun acc w => if w ∈ vis ∨ w ∈ acc then acc else acc ++ [w]) []

lemma collectFresh_aux (vis : List ℕ) :
    ∀ (l acc : List ℕ), acc.Nodup → (∀ a ∈ acc, a ∉ vis) →
      (l.foldl (fun acc w => if w ∈ vis ∨ w ∈ acc then acc else acc ++ [w])
          acc).Nodup ∧
      (∀ a ∈ l.foldl (fun acc w => if w ∈ vis ∨ w ∈ acc then acc
          else acc ++ [w]) acc, (a ∈ acc ∨ a ∈ l) ∧ a ∉ vis) ∧
      (∀ w ∈ l, w ∈ vis ∨ w ∈ l.foldl (fun acc w =>
          if w ∈ vis ∨ w ∈ acc then acc else acc ++ [w]) acc) ∧
      (∀ a ∈ acc, a ∈ l.foldl (fun acc w =>
          if w ∈ vis ∨ w ∈ acc then acc else acc ++ [w]) acc) := by
  intro l
  induction l with
  | nil =>
      intro acc hnd hdisj
      exact ⟨hnd, fun a ha => ⟨Or.inl ha, hdisj a ha⟩,
        fun w hw => by simp at hw, fun a ha => ha⟩
  | cons w ws ih =>
      intro acc hnd hdisj
      rw [List.foldl_cons]
      by_cases hc : w ∈ vis ∨ w ∈ acc
      · rw [if_pos hc]
        rcases ih acc hnd hdisj with ⟨i1, i2, i3, i4⟩
        refine ⟨i1, ?_, ?_, i4⟩
        · intro a ha
          rcases i2 a ha with ⟨h5, h6⟩
          exact ⟨h5.imp id (List.mem_cons_of_mem _), h6⟩
        · intro x hx
          rcases List.mem_cons.mp hx with hxw | hxl
          · subst hxw
            rcases hc with hcv | hca
            · exact Or.inl hcv
            · exact Or.inr (i4 x hca)
          · exact i3 x hxl
      · rw [if_neg hc]
        push_neg at hc
        have hnd' : (acc ++ [w]).Nodup := by
          rw [List.nodup_append]
          exact ⟨hnd, List.nodup_singleton w,
            fun a ha hb => hc.2 (by simpa using (List.mem_singleton.mp hb) ▸ ha)⟩
        have hdisj' : ∀ a ∈ acc ++ [w], a ∉ vis := by
          intro a ha
          rcases List.mem_append.mp ha with h | h
          · exact hdisj a h
          · rw [List.mem_singleton.mp h]
            exact hc.1
        rcases ih (acc ++ [w]) hnd' hdisj' with ⟨i1, i2, i3, i4⟩
        refine ⟨i1, ?_, ?_, ?_⟩
        · intro a ha
          rcases i2 a ha with ⟨h5, h6⟩
          refine ⟨?_, h6⟩
          rcases h5 with h5 | h5
          · rcases List.mem_append.mp h5 with h | h
            · exact Or.inl h
            · refine Or.inr ?_
              rw [List.mem_singleton.mp h]
              exact List.mem_cons_self w ws
          · exact Or.inr (List.mem_cons_of_mem _ h5)
        · intro x hx
          rcases List.mem_cons.mp hx with hxw | hxl
          · subst hxw
            exact Or.inr (i4 x (List.mem_append_right _ (List.mem_singleton_self x)))
          · exact i3 x hxl
        · intro a ha
          exact i4 a (List.mem_append_left _ ha)

lemma collectFresh_spec (vis l : List ℕ) :
    (collectFresh vis l).Nodup ∧
      (∀ a ∈ collectFresh vis l, a ∈ l ∧ a ∉ vis) ∧
      (∀ w ∈ l, w ∈ vis ∨ w ∈ collectFresh vis l) := by
  rcases collectFresh_aux vis l [] (List.nodup_nil) (by simp) with ⟨i1, i2, i3, _⟩
  refine ⟨i1, ?_, i3⟩
  intro a ha
  rcases i2 a ha with ⟨h5, h6⟩
  rcases h5 with h5 | h5
  · simp at h5
  · exact ⟨h5, h6⟩

/-- A visit set closed under the neighbor relation contains the whole
connected component of any of its members. -/
lemma closed_conn_mem {g : Graph} {vis : List ℕ}
    (hcl : ∀ x ∈ vis, ∀ w ∈ neighbors g x, w ∈ vis) {root v : ℕ}
    (hroot : root ∈ vis) (hconn : Conn g root v) : v ∈ vis := by
  induction hconn with
  | refl => exact hroot
  | tail _ hab ih => exact hcl _ ih _ (adjP_mem_neighbors hab)

/-- A directed edge list whose edges strictly increase a rank function is
acyclic. -/
lemma acyclic_of_rank (es : List (ℕ × ℕ)) (rank : ℕ → ℕ)
    (h : ∀ e ∈ es, rank e.1 < rank e.2) :
    ∀ u, ¬ Relation.TransGen (fun a b => (a, b) ∈ es) u u := by
  have hmono : ∀ a b, Relation.TransGen (fun a b => (a, b) ∈ es) a b →
      rank a < rank b := by
    intro a b hab
    induction hab with
    | single h1 => exact h _ h1
    | tail _ h1 ih => exact lt_trans ih (h _ h1)
  intro u hu
  exact absurd (hmono u u hu) (lt_irrefl _)

/-- Invariants of the traversal state: distinct visits drawn from the
graph, one tree edge per non-root visit, edges pointing forward in
discovery order, and every visit reachable both in the tree and in the
underlying graph. -/
structure TravInv (g : Graph) (root : ℕ) (vis : List ℕ)
    (es : List (ℕ × ℕ)) : Prop where
  nodup : vis.Nodup
  sub : vis ⊆ root :: g.nodes
  shape : vis = root :: es.map Prod.snd
  edges : ∀ e ∈ es, e.1 ∈ vis ∧ e.2 ∈ vis ∧ vis.indexOf e.1 < vis.indexOf e.2
  reach : ∀ x ∈ vis, dirReach es root x
  conn : ∀ x ∈ vis, Conn g root x

lemma traverseAux_spec (g : Graph) (df : Bool) (root : ℕ) (hwf : WF g) :
    ∀ (fuel : ℕ) (front vis : List ℕ) (es : List (ℕ × ℕ)),
      TravInv g root vis es →
      front ⊆ vis →
      (∀ x ∈ vis, x ∈ front ∨ ∀ w ∈ neighbors g x, w ∈ vis) →
      front.length + (root :: g.nodes).length ≤ fuel + vis.length →
      TravInv g root (traverseAux g df fuel front vis es).1
          (traverseAux g df fuel front vis es).2 ∧
        vis ⊆ (traverseAux g df fuel front vis es).1 ∧
        es ⊆ (traverseAux g df fuel front vis es).2 ∧
        (∀ x ∈ (traverseAux g df fuel front vis es).1,
          ∀ w ∈ neighbors g x, w ∈ (traverseAux g df fuel front vis es).1) := by
  intro fuel
  induction fuel with
  | zero =>
      intro front vis es hinv hfront hsemi hmeas
      have hvlen : vis.length ≤ (root :: g.nodes).length :=
        nodup_subset_length_le hinv.nodup hinv.sub
      have hfe : front = [] := by
        have : front.length = 0 := by omega
        exact List.length_eq_zero.mp this
      subst hfe
      refine ⟨hinv, fun _ h => h, fun _ h => h, ?_⟩
      intro x hx w hw
      rcases hsemi x hx with h | h
      · simp at h
      · exact h w hw
  | succ fuel ih =>
      intro front vis es hinv hfront hsemi hmeas
      cases front with
      | nil =>
          refine ⟨hinv, fun _ h => h, fun _ h => h, ?_⟩
          intro x hx w hw
          rcases hsemi x hx with h | h
          · simp at h
          · exact h w hw
      | cons u front0 =>
          have hu : u ∈ vis := hfront (List.mem_cons_self _ _)
          have hws : (neighbors g u).foldl
              (fun acc w => if w ∈ vis ∨ w ∈ acc then acc else acc ++ [w]) [] =
              collectFresh vis (neighbors g u) := rfl
          rcases collectFresh_spec vis (neighbors g u) with ⟨wsnd, wsub, wcov⟩
          set ws := collectFresh vis (neighbors g u) with hws_def
          have hstep : traverseAux g df (fuel + 1) (u :: front0) vis es =
              traverseAux g df fuel (if df then ws ++ front0 else front0 ++ ws)
                (vis ++ ws) (es ++ ws.map (fun w => (u, w))) := by
            show traverseAux g df fuel _ _ _ = _
            rw [hws]
          rw [hstep]
          have hdisj : vis.Disjoint ws := fun a hav haw => (wsub a haw).2 hav
          have hnodup' : (vis ++ ws).Nodup :=
            List.Nodup.append hinv.nodup wsnd hdisj
          have hsub' : (vis ++ ws) ⊆ root :: g.nodes := by
            intro x hx
            rcases List.mem_append.mp hx with h | h
            · exact hinv.sub h
            · exact List.mem_cons_of_mem _
                (neighbors_mem_nodes hwf (wsub x h).1)
          have hshape' : vis ++ ws =
              root :: (es ++ ws.map (fun w => (u, w))).map Prod.snd := by
            rw [List.map_append, List.map_map]
            have hcomp : (Prod.snd ∘ fun w : ℕ => (u, w)) = (id : ℕ → ℕ) := by
              funext w
              rfl
            rw [hcomp, List.map_id]
            rw [hinv.shape]
            rfl
          have hedges' : ∀ e ∈ es ++ ws.map (fun w => (u, w)),
              e.1 ∈ vis ++ ws ∧ e.2 ∈ vis ++ ws ∧
                (vis ++ ws).indexOf e.1 < (vis ++ ws).indexOf e.2 := by
            intro e he
            rcases List.mem_append.mp he with h | h
            · rcases hinv.edges e h with ⟨h1, h2, h3⟩
              refine ⟨List.mem_append_left _ h1, List.mem_append_left _ h2, ?_⟩
              rw [indexOf_append_left _ _ h1, indexOf_append_left _ _ h2]
              exact h3
            · rcases List.mem_map.mp h with ⟨w, hw, rfl⟩
              refine ⟨List.mem_append_left _ hu,
                List.mem_append_right _ hw, ?_⟩
              rw [indexOf_append_left _ _ hu,
                indexOf_append_right _ _ (wsub w hw).2]
              have h4 : vis.indexOf u < vis.length :=
                List.indexOf_lt_length.mpr hu
              omega
          have hreach' : ∀ x ∈ vis ++ ws,
              dirReach (es ++ ws.map (fun w => (u, w))) root x := by
            intro x hx
            rcases List.mem_append.mp hx with h | h
            · exact dirReach_mono (List.subset_append_left _ _)
                (hinv.reach x h)
            · refine Relation.ReflTransGen.tail
                (dirReach_mono (List.subset_append_left _ _)
                  (hinv.reach u hu)) ?_
              exact List.mem_append_right _
                (List.mem_map.mpr ⟨x, h, rfl⟩)
          have hconn' : ∀ x ∈ vis ++ ws, Conn g root x := by
            intro x hx
            rcases List.mem_append.mp hx with h | h
            · exact hinv.conn x h
            · exact Relation.ReflTransGen.tail (hinv.conn u hu)
                (neighbors_adjP (wsub x h).1)
          have hinv' : TravInv g root (vis ++ ws)
              (es ++ ws.map (fun w => (u, w))) :=
            ⟨hnodup', hsub', hshape', hedges', hreach', hconn'⟩
          have hfront' : (if df then ws ++ front0 else front0 ++ ws) ⊆
              vis ++ ws := by
            intro x hx
            have hmem : x ∈ ws ++ front0 ∨ x ∈ front0 ++ ws := by
              by_cases hdf : df = true
              · rw [if_pos hdf] at hx
                exact Or.inl hx
              · rw [if_neg hdf] at hx
                exact Or.inr hx
            have hx' : x ∈ ws ∨ x ∈ front0 := by
              rcases hmem with h | h
              · rcases List.mem_append.mp h with h | h
                · exact Or.inl h
                · exact Or.inr h
              · rcases List.mem_append.mp h with h | h
                · exact Or.inr h
                · exact Or.inl h
            rcases hx' with h | h
            · exact List.mem_append_right _ h
            · exact List.mem_append_left _
                (hfront (List.mem_cons_of_mem _ h))
          have hsemi' : ∀ x ∈ vis ++ ws,
              x ∈ (if df then ws ++ front0 else front0 ++ ws) ∨
                ∀ w ∈ neighbors g x, w ∈ vis ++ ws := by
            intro x hx
            have hfrontmem : ∀ y, y ∈ ws ∨ y ∈ front0 →
                y ∈ (if df then ws ++ front0 else front0 ++ ws) := by
              intro y hy
              by_cases hdf : df = true
              · rw [if_pos hdf]
                rcases hy with h | h
                · exact List.mem_append_left _ h
                · exact List.mem_append_right _ h
              · rw [if_neg hdf]
                rcases hy with h | h
                · exact List.mem_append_right _ h
                · exact List.mem_append_left _ h
            rcases List.mem_append.mp hx with h | h
            · by_cases hxu : x = u
              · subst hxu
                refine Or.inr ?_
                intro w hw
                rcases wcov w hw with h' | h'
                · exact List.mem_append_left _ h'
                · exact List.mem_append_right _ h'
              · rcases hsemi x h with h' | h'
                · rcases List.mem_cons.mp h' with h'' | h''
                  · exact absurd h'' hxu
                  · exact Or.inl (hfrontmem x (Or.inr h''))
                · exact Or.inr fun w hw =>
                    List.mem_append_left _ (h' w hw)
            · exact Or.inl (hfrontmem x (Or.inl h))
          have hmeas' : (if df then ws ++ front0 else front0 ++ ws).length +
              (root :: g.nodes).length ≤ fuel + (vis ++ ws).length := by
            have hlen : (if df then ws ++ front0 else front0 ++ ws).length =
                front0.length + ws.length := by
              by_cases hdf : df = true
              · rw [if_pos hdf, List.length_append]
                omega
              · rw [if_neg hdf, List.length_append]
            rw [hlen, List.length_append]
            simp only [List.length_cons] at hmeas ⊢
            omega
          rcases ih _ _ _ hinv' hfront' hsemi' hmeas' with ⟨r1, r2, r3, r4⟩
          refine ⟨r1, ?_, ?_, r4⟩
          · exact fun x hx => r2 (List.mem_append_left _ hx)
          · exact fun e he => r3 (List.mem_append_left _ he)

/-! ### Maximum spanning tree (model of `networkx.maximum_spanning_tree`) -/

/-- One Kruskal step: add the scored edge unless its endpoints are already
connected. -/
noncomputable def kstep (g : Graph) (e : ℕ × ℕ × ℝ) : Graph :=
  if hasPath g e.1 e.2.1 then g else addEdge g e.1 e.2.1

/-- Kruskal's algorithm on edges in stable descending weight order. -/
noncomputable def kruskal (nodes : List ℕ) (wedges : List (ℕ × ℕ × ℝ)) :
    Graph :=
  (sortDesc wedges).foldl kstep ⟨nodes, []⟩

lemma mem_sortDesc {z : ℕ × ℕ × ℝ} :
    ∀ {l : List (ℕ × ℕ × ℝ)}, z ∈ sortDesc l ↔ z ∈ l := by
  intro l
  induction l with
  | nil => simp [sortDesc]
  | cons x xs ih =>
      show z ∈ insertDesc x (sortDesc xs) ↔ _
      rw [mem_insertDesc, ih, List.mem_cons]

lemma addEdge_not_adjacent {g : Graph} {u v : ℕ} (hu : u ∈ g.nodes)
    (hv : v ∈ g.nodes) (h : ¬ adjacent g u v = true) :
    addEdge g u v = ⟨g.nodes, g.edges ++ [(u, v)]⟩ := by
  unfold addEdge
  rw [if_neg h]
  simp [hu, hv]

lemma addEdge_nodes_of_mem {g : Graph} {u v : ℕ} (hu : u ∈ g.nodes)
    (hv : v ∈ g.nodes) : (addEdge g u v).nodes = g.nodes := by
  by_cases h : adjacent g u v = true
  · unfold addEdge
    rw [if_pos h]
  · rw [addEdge_not_adjacent hu hv h]

lemma addEdge_wf {g : Graph} (hwf : WF g) {u v : ℕ} (hu : u ∈ g.nodes)
    (hv : v ∈ g.nodes) : WF (addEdge g u v) := by
  by_cases h : adjacent g u v = true
  · unfold addEdge
    rw [if_pos h]
    exact hwf
  · rw [addEdge_not_adjacent hu hv h]
    refine ⟨hwf.1, ?_⟩
    intro e he
    rcases List.mem_append.mp he with h' | h'
    · exact hwf.2 e h'
    · rw [List.mem_singleton.mp h']
      exact ⟨hu, hv⟩

lemma addEdge_adjP (g : Graph) (u v : ℕ) : adjP (addEdge g u v) u v := by
  by_cases h : adjacent g u v = true
  · unfold addEdge
    rw [if_pos h]
    exact h
  · have hsub : (u, v) ∈ (addEdge g u v).edges := by
      unfold addEdge
      rw [if_neg h]
      exact List.mem_append_right _ (List.mem_singleton_self _)
    exact adjacent_iff.mpr ⟨(u, v), hsub, Or.inl ⟨rfl, rfl⟩⟩

lemma kruskalFold_spec :
    ∀ (l : List (ℕ × ℕ × ℝ)) (g : Graph), WF g →
      (∀ e ∈ l, e.1 ∈ g.nodes ∧ e.2.1 ∈ g.nodes) →
      WF (l.foldl kstep g) ∧ (l.foldl kstep g).nodes = g.nodes ∧
        g.edges ⊆ (l.foldl kstep g).edges ∧
        (∀ e ∈ l, Conn (l.foldl kstep g) e.1 e.2.1) := by
  intro l
  induction l with
  | nil =>
      intro g hwf _
      exact ⟨hwf, rfl, fun _ h => h, fun e he => by simp at he⟩
  | cons e l ih =>
      intro g hwf hends
      have hends_e := hends e (List.mem_cons_self _ _)
      have hstep : WF (kstep g e) ∧ (kstep g e).nodes = g.nodes ∧
          g.edges ⊆ (kstep g e).edges ∧ Conn (kstep g e) e.1 e.2.1 := by
        unfold kstep
        by_cases h : hasPath g e.1 e.2.1 = true
        · rw [if_pos h]
          exact ⟨hwf, rfl, fun _ h => h, hasPath_sound h⟩
        · rw [if_neg h]
          exact ⟨addEdge_wf hwf hends_e.1 hends_e.2,
            addEdge_nodes_of_mem hends_e.1 hends_e.2,
            addEdge_edges_sub g e.1 e.2.1,
            Relation.ReflTransGen.single (addEdge_adjP g e.1 e.2.1)⟩
      rcases hstep with ⟨hwf', hnodes', hsub', hconn'⟩
      have hends' : ∀ d ∈ l, d.1 ∈ (kstep g e).nodes ∧
          d.2.1 ∈ (kstep g e).nodes := by
        intro d hd
        rw [hnodes']
        exact hends d (List.mem_cons_of_mem _ hd)
      rcases ih (kstep g e) hwf' hends' with ⟨r1, r2, r3, r4⟩
      rw [List.foldl_cons]
      refine ⟨r1, by rw [r2, hnodes'], fun x hx => r3 (hsub' hx), ?_⟩
      intro d hd
      rcases List.mem_cons.mp hd with h | h
      · subst h
        exact conn_mono r3 hconn'
      · exact r4 d h

lemma kruskal_spec (nodes : List ℕ) (wedges : List (ℕ × ℕ × ℝ))
    (hnd : nodes.Nodup)
    (hends : ∀ e ∈ wedges, e.1 ∈ nodes ∧ e.2.1 ∈ nodes) :
    WF (kruskal nodes wedges) ∧ (kruskal nodes wedges).nodes = nodes ∧
      ∀ e ∈ wedges, Conn (kruskal nodes wedges) e.1 e.2.1 := by
  have hwf0 : WF (⟨nodes, []⟩ : Graph) := ⟨hnd, by simp⟩
  have hends0 : ∀ e ∈ sortDesc wedges,
      e.1 ∈ (⟨nodes, []⟩ : Graph).nodes ∧
        e.2.1 ∈ (⟨nodes, []⟩ : Graph).nodes :=
    fun e he => hends e (mem_sortDesc.mp he)
  rcases kruskalFold_spec (sortDesc wedges) ⟨nodes, []⟩ hwf0 hends0 with
    ⟨r1, r2, _, r4⟩
  exact ⟨r1, r2, fun e he => r4 e (mem_sortDesc.mpr he)⟩

lemma mem_drop_range {n m j : ℕ} : j ∈ (List.range n).drop m ↔ m ≤ j ∧ j < n := by
  constructor
  · intro h
    rcases List.mem_iff_getElem.mp h with ⟨k, hk, hkj⟩
    rw [List.getElem_drop] at hkj
    rw [List.length_drop, List.length_range] at hk
    rw [List.getElem_range] at hkj
    omega
  · intro h
    apply List.mem_iff_getElem.mpr
    refine ⟨j - m, ?_, ?_⟩
    · rw [List.length_drop, List.length_range]
      omega
    · rw [List.getElem_drop, List.getElem_range]
      omega

lemma allPairs_mem_names {feats : List (ℕ × List ℤ)} :
    ∀ e ∈ allPairs feats,
      e.1 ∈ feats.map Prod.fst ∧ e.2.1 ∈ feats.map Prod.fst := by
  intro e he
  unfold allPairs at he
  rcases List.mem_flatMap.mp he with ⟨i, hi, he2⟩
  rcases List.mem_map.mp he2 with ⟨j, hj, rfl⟩
  rw [List.mem_range] at hi
  have hj' := mem_drop_range.mp hj
  constructor
  · apply List.mem_map.mpr
    refine ⟨feats.getD i (0, []), ?_, rfl⟩
    rw [List.getD_eq_getElem _ _ hi]
    exact List.getElem_mem _
  · apply List.mem_map.mpr
    refine ⟨feats.getD j (0, []), ?_, rfl⟩
    rw [List.getD_eq_getElem _ _ hj'.2]
    exact List.getElem_mem _

lemma allPairs_pair_mem {feats : List (ℕ × List ℤ)} {i j : ℕ}
    (hij : i < j) (hj : j < feats.length) :
    ((feats.getD i (0, [])).1, (feats.getD j (0, [])).1,
      mutual_info_score (feats.getD i (0, [])).2 (feats.getD j (0, [])).2) ∈
      allPairs feats := by
  unfold allPairs
  apply List.mem_flatMap.mpr
  refine ⟨i, List.mem_range.mpr (lt_trans hij hj), ?_⟩
  apply List.mem_map.mpr
  exact ⟨j, mem_drop_range.mpr ⟨by omega, hj⟩, rfl⟩

/-! ### DAG assembly and the tree search -/

/-- The errors the estimators can raise: a missing class/root column
(`ValueError`), the unguarded `L.pop(0)` / `columns[0]` (`IndexError`),
and a `networkx` error for a root absent from the feature graph. -/
inductive PyErr
  | valueError
  | indexError
  | nxError
deriving DecidableEq, Repr

/-- The directed search tree (`nx.bfs_tree` / `nx.dfs_tree`) rooted at
`root`: visited nodes and discovery edges. -/
def searchTree (g : Graph) (root : ℕ) (df : Bool) : DiGraph :=
  ⟨(traverse g root df).1, (traverse g root df).2⟩

/-- `for node in df_features.columns: digraph.add_edge(class_node, node)`. -/
def attachClass (d : DiGraph) (classNode : ℕ) (names : List ℕ) : DiGraph :=
  names.foldl (fun d n => addDirEdge d classNode n) d

lemma addDirEdge_edges (d : DiGraph) (u v : ℕ) :
    (addDirEdge d u v).edges =
      if (u, v) ∈ d.edges then d.edges else d.edges ++ [(u, v)] := rfl

lemma attachClass_edges (classNode : ℕ) :
    ∀ (names : List ℕ) (d : DiGraph), names.Nodup →
      (∀ f ∈ names, (classNode, f) ∉ d.edges) →
      (attachClass d classNode names).edges =
        d.edges ++ names.map (fun f => (classNode, f)) := by
  intro names
  induction names with
  | nil => intro d _ _; simp [attachClass]
  | cons n ns ih =>
      intro d hnd hfresh
      show (attachClass (addDirEdge d classNode n) classNode ns).edges = _
      have hn : (classNode, n) ∉ d.edges :=
        hfresh n (List.mem_cons_self _ _)
      have hedges1 : (addDirEdge d classNode n).edges =
          d.edges ++ [(classNode, n)] := by
        rw [addDirEdge_edges, if_neg hn]
      have hfresh' : ∀ f ∈ ns, (classNode, f) ∉ (addDirEdge d classNode n).edges := by
        intro f hf
        rw [hedges1]
        intro hmem
        rcases List.mem_append.mp hmem with h | h
        · exact hfresh f (List.mem_cons_of_mem _ hf) h
        · have : f = n := by
            have := List.mem_singleton.mp h
            exact (Prod.mk.injEq _ _ _ _).mp this |>.2
          exact (List.nodup_cons.mp hnd).1 (this ▸ hf)
      rw [ih (addDirEdge d classNode n) (List.Nodup.of_cons hnd) hfresh',
        hedges1]
      simp

/-- The root actually used by the tree search: the supplied one, else the
first feature column. -/
def chosenRoot (rootNode : Option ℕ) (names : List ℕ) : ℕ :=
  match rootNode with
  | some r => r
  | none => names.headD 0

/-- `TreeAugmentedNaiveBayesSearch.estimate`: validate the class and root
columns, build the complete mutual-information graph over the features,
extract a maximum spanning tree, orient it breadth-first from the root and
attach the class node as parent of every feature. -/
noncomputable def treeEstimate (table : List (ℕ × List ℤ)) (classNode : ℕ)
    (rootNode : Option ℕ) : Except PyErr DiGraph :=
  if classNode ∉ table.map Prod.fst then .error .valueError
  else if rootNode.any (fun r => decide (r ∉ table.map Prod.fst)) then
    .error .valueError
  else
    match rootNode,
      (table.filter (fun c => c.1 != classNode)).map Prod.fst with
    | some r, names =>
        if r ∈ names then
          .ok (attachClass
            (searchTree (kruskal names
              (allPairs (table.filter (fun c => c.1 != classNode)))) r false)
            classNode names)
        else .error .nxError
    | none, [] => .error .indexError
    | none, r :: rs =>
        .ok (attachClass
          (searchTree (kruskal (r :: rs)
            (allPairs (table.filter (fun c => c.1 != classNode)))) r false)
          classNode (r :: rs))

def outDeg (d : DiGraph) (u : ℕ) : ℕ :=
  (d.edges.filter (fun e => e.1 == u)).length

def inDeg (d : DiGraph) (u : ℕ) : ℕ :=
  (d.edges.filter (fun e => e.2 == u)).length

/-- The feature-to-feature edges of the output DAG (all edges not leaving
the class node). -/
def featEdges (d : DiGraph) (classNode : ℕ) : List (ℕ × ℕ) :=
  d.edges.filter (fun e => e.1 != classNode)

/-- Spanning traversal: on a graph whose nodes are all connected to
`root`, the traversal visits exactly the nodes and keeps the tree-edge
invariants. -/
lemma traverse_spanning (g : Graph) (root : ℕ) (df : Bool) (hwf : WF g)
    (hroot : root ∈ g.nodes) (hconn : ∀ f ∈ g.nodes, Conn g root f) :
    TravInv g root (traverse g root df).1 (traverse g root df).2 ∧
      (∀ f ∈ g.nodes, f ∈ (traverse g root df).1) := by
  have hinv0 : TravInv g root [root] [] := by
    refine ⟨List.nodup_singleton _, ?_, rfl, ?_, ?_, ?_⟩
    · intro x hx
      rw [List.mem_singleton.mp hx]
      exact List.mem_cons_self _ _
    · intro e he
      simp at he
    · intro x hx
      rw [List.mem_singleton.mp hx]
      exact Relation.ReflTransGen.refl
    · intro x hx
      rw [List.mem_singleton.mp hx]
      exact conn_refl _ _
  have hspec := traverseAux_spec g df root hwf (g.nodes.length + 1)
    [root] [root] [] hinv0 (fun _ h => h)
    (fun x hx => Or.inl hx)
    (by simp; omega)
  rcases hspec with ⟨rinv, rsub, _, rclosed⟩
  refine ⟨rinv, ?_⟩
  intro f hf
  exact closed_conn_mem rclosed (rsub (List.mem_singleton_self _))
    (hconn f hf)

/-- Any two feature names are connected in the Kruskal tree of the
complete mutual-information graph: the complete pair list contains an edge
for every index pair, and Kruskal preserves connectivity of its input
edges. -/
lemma kruskal_feats_conn (feats : List (ℕ × List ℤ))
    (hnd : (feats.map Prod.fst).Nodup) {u v : ℕ}
    (hu : u ∈ feats.map Prod.fst) (hv : v ∈ feats.map Prod.fst) :
    Conn (kruskal (feats.map Prod.fst) (allPairs feats)) u v := by
  rcases kruskal_spec (feats.map Prod.fst) (allPairs feats) hnd
    (fun e he => allPairs_mem_names e he) with ⟨hwf, hnodes, hpairs⟩
  rcases List.mem_iff_getElem.mp hu with ⟨i, hi, hiu⟩
  rcases List.mem_iff_getElem.mp hv with ⟨j, hj, hjv⟩
  have hlen : (feats.map Prod.fst).length = feats.length := List.length_map _ _
  have hgu : (feats.getD i (0, [])).1 = u := by
    rw [List.getD_eq_getElem _ _ (show i < feats.length by omega)]
    rw [← hiu]
    simp
  have hgv : (feats.getD j (0, [])).1 = v := by
    rw [List.getD_eq_getElem _ _ (show j < feats.length by omega)]
    rw [← hjv]
    simp
  rcases lt_trichotomy i j with hij | hij | hij
  · have hpair := hpairs _ (allPairs_pair_mem hij (by omega))
    rw [hgu, hgv] at hpair
    exact hpair
  · subst hij
    rw [hiu] at hjv
    rw [hjv]
    exact conn_refl _ _
  · have hpair := hpairs _ (allPairs_pair_mem hij (by omega))
    rw [hgv, hgu] at hpair
    exact conn_symm hpair

/-- Structural invariants of the assembled tree-search DAG, stated over
the feature list. -/
lemma tree_core (feats : List (ℕ × List ℤ)) (root classNode : ℕ)
    (hnd : (feats.map Prod.fst).Nodup)
    (hroot : root ∈ feats.map Prod.fst)
    (hclass : classNode ∉ feats.map Prod.fst) :
    outDeg (attachClass
        (searchTree (kruskal (feats.map Prod.fst) (allPairs feats)) root false)
        classNode (feats.map Prod.fst)) classNode =
      (feats.map Prod.fst).length ∧
    inDeg (attachClass
        (searchTree (kruskal (feats.map Prod.fst) (allPairs feats)) root false)
        classNode (feats.map Prod.fst)) classNode = 0 ∧
    (featEdges (attachClass
        (searchTree (kruskal (feats.map Prod.fst) (allPairs feats)) root false)
        classNode (feats.map Prod.fst)) classNode).length + 1 =
      (feats.map Prod.fst).length ∧
    (∀ f ∈ feats.map Prod.fst,
      dirReach (featEdges (attachClass
        (searchTree (kruskal (feats.map Prod.fst) (allPairs feats)) root false)
        classNode (feats.map Prod.fst)) classNode) root f) ∧
    (∀ u, ¬ Relation.TransGen (fun a b => (a, b) ∈
      featEdges (attachClass
        (searchTree (kruskal (feats.map Prod.fst) (allPairs feats)) root false)
        classNode (feats.map Prod.fst)) classNode) u u) := by
  set names := feats.map Prod.fst with hnames
  set tree := kruskal names (allPairs feats) with htree
  rcases kruskal_spec names (allPairs feats) hnd
    (fun e he => allPairs_mem_names e he) with ⟨hwf, hnodes, _⟩
  have hroot_tree : root ∈ tree.nodes := by rw [hnodes]; exact hroot
  have hconn_all : ∀ f ∈ tree.nodes, Conn tree root f := by
    intro f hf
    rw [hnodes] at hf
    exact kruskal_feats_conn feats hnd hroot hf
  rcases traverse_spanning tree root false hwf hroot_tree hconn_all with
    ⟨rinv, rcov⟩
  set vis := (traverse tree root false).1 with hvis
  set es := (traverse tree root false).2 with hes
  -- every visited node is a feature name
  have hvis_names : ∀ x ∈ vis, x ∈ names := by
    intro x hx
    have := rinv.sub hx
    rcases List.mem_cons.mp this with h | h
    · rw [h]; exact hroot
    · rw [hnodes] at h; exact h
  have hnames_vis : ∀ x ∈ names, x ∈ vis := by
    intro x hx
    apply rcov
    rw [hnodes]
    exact hx
  -- lengths agree
  have hvis_len : vis.length = names.length :=
    le_antisymm (nodup_subset_length_le rinv.nodup hvis_names)
      (nodup_subset_length_le hnd hnames_vis)
  have hes_len : es.length + 1 = names.length := by
    have := congrArg List.length rinv.shape
    simp only [List.length_cons, List.length_map] at this
    omega
  -- edge sources and targets are features, never the class node
  have hes_src : ∀ e ∈ es, e.1 ≠ classNode := by
    intro e he hne
    exact hclass (hne ▸ hvis_names _ (rinv.edges e he).1)
  have hes_tgt : ∀ e ∈ es, e.2 ≠ classNode := by
    intro e he hne
    exact hclass (hne ▸ hvis_names _ (rinv.edges e he).2.1)
  -- the assembled edge list
  have hd_edges : (attachClass (searchTree tree root false) classNode
      names).edges = es ++ names.map (fun f => (classNode, f)) := by
    apply attachClass_edges classNode names (searchTree tree root false) hnd
    intro f _ hmem
    exact hes_src _ hmem rfl
  refine ⟨?_, ?_, ?_, ?_, ?_⟩
  · unfold outDeg
    rw [hd_edges, List.filter_append]
    have h1 : es.filter (fun e => e.1 == classNode) = [] := by
      apply List.filter_eq_nil_iff.mpr
      intro e he
      simp only [beq_iff_eq]
      exact fun h => hes_src e he (by simpa using h)
    have h2 : (names.map (fun f => (classNode, f))).filter
        (fun e => e.1 == classNode) = names.map (fun f => (classNode, f)) := by
      apply List.filter_eq_self.mpr
      intro e he
      rcases List.mem_map.mp he with ⟨f, _, rfl⟩
      simp
    rw [h1, h2]
    simp
  · unfold inDeg
    rw [hd_edges, List.filter_append]
    have h1 : es.filter (fun e => e.2 == classNode) = [] := by
      apply List.filter_eq_nil_iff.mpr
      intro e he
      simp only [beq_iff_eq]
      exact fun h => hes_tgt e he (by simpa using h)
    have h2 : (names.map (fun f => (classNode, f))).filter
        (fun e => e.2 == classNode) = [] := by
      apply List.filter_eq_nil_iff.mpr
      intro e he
      rcases List.mem_map.mp he with ⟨f, hf, rfl⟩
      simp only [beq_iff_eq]
      exact fun h => hclass (by simpa using h ▸ hf)
    rw [h1, h2]
    simp
  · have hfe : featEdges (attachClass (searchTree tree root false) classNode
        names) classNode = es := by
      unfold featEdges
      rw [hd_edges, List.filter_append]
      have h1 : es.filter (fun e => e.1 != classNode) = es := by
        apply List.filter_eq_self.mpr
        intro e he
        simpa using hes_src e he
      have h2 : (names.map (fun f => (classNode, f))).filter
          (fun e => e.1 != classNode) = [] := by
        apply List.filter_eq_nil_iff.mpr
        intro e he
        rcases List.mem_map.mp he with ⟨f, _, rfl⟩
        simp
      rw [h1, h2]
      simp
    rw [hfe]
    exact hes_len
  · intro f hf
    have hfe : featEdges (attachClass (searchTree tree root false) classNode
        names) classNode = es := by
      unfold featEdges
      rw [hd_edges, List.filter_append]
      have h1 : es.filter (fun e => e.1 != classNode) = es := by
        apply List.filter_eq_self.mpr
        intro e he
        simpa using hes_src e he
      have h2 : (names.map (fun f => (classNode, f))).filter
          (fun e => e.1 != classNode) = [] := by
        apply List.filter_eq_nil_iff.mpr
        intro e he
        rcases List.mem_map.mp he with ⟨f, _, rfl⟩
        simp
      rw [h1, h2]
      simp
    rw [hfe]
    exact rinv.reach f (hnames_vis f hf)
  · intro u
    have hfe : featEdges (attachClass (searchTree tree root false) classNode
        names) classNode = es := by
      unfold featEdges
      rw [hd_edges, List.filter_append]
      have h1 : es.filter (fun e => e.1 != classNode) = es := by
        apply List.filter_eq_self.mpr
        intro e he
        simpa using hes_src e he
      have h2 : (names.map (fun f => (classNode, f))).filter
          (fun e => e.1 != classNode) = [] := by
        apply List.filter_eq_nil_iff.mpr
        intro e he
        rcases List.mem_map.mp he with ⟨f, _, rfl⟩
        simp
      rw [h1, h2]
      simp
    rw [hfe]
    exact acyclic_of_rank es (fun x => vis.indexOf x)
      (fun e he => (rinv.edges e he).2.2) u

lemma treeEstimate_eval (table : List (ℕ × List ℤ)) (classNode : ℕ)
    (rootNode : Option ℕ)
    (hclass : classNode ∈ table.map Prod.fst)
    (hfeat : (table.filter (fun c => c.1 != classNode)).map Prod.fst ≠ [])
    (hroot : ∀ r, rootNode = some r →
      r ∈ (table.filter (fun c => c.1 != classNode)).map Prod.fst)
    (hsub : ∀ x ∈ (table.filter (fun c => c.1 != classNode)).map Prod.fst,
      x ∈ table.map Prod.fst) :
    treeEstimate table classNode rootNode =
      .ok (attachClass
        (searchTree
          (kruskal ((table.filter (fun c => c.1 != classNode)).map Prod.fst)
            (allPairs (table.filter (fun c => c.1 != classNode))))
          (chosenRoot rootNode
            ((table.filter (fun c => c.1 != classNode)).map Prod.fst)) false)
        classNode ((table.filter (fun c => c.1 != classNode)).map Prod.fst)) := by
  unfold treeEstimate
  rw [if_neg (not_not_intro hclass)]
  have hcond2 : ¬ (rootNode.any
      (fun r => decide (r ∉ table.map Prod.fst)) = true) := by
    cases rootNode with
    | none => simp
    | some r =>
        have hmem : r ∈ table.map Prod.fst := hsub r (hroot r rfl)
        simp only [Option.any_some, decide_eq_true_eq]
        exact not_not_intro hmem
  rw [if_neg hcond2]
  cases rootNode with
  | some r =>
      show (if r ∈ (table.filter (fun c => c.1 != classNode)).map Prod.fst
        then _ else _) = _
      rw [if_pos (hroot r rfl)]
      rfl
  | none =>
      rcases hnn : (table.filter (fun c => c.1 != classNode)).map Prod.fst with
        _ | ⟨r, rs⟩
      · exact absurd hnn hfeat
      · rw [hnn]
        rfl

set_option maxHeartbeats 1000000 in
/-- C7: for every table with distinct column names, a present class column
and at least one feature column (and a root, when supplied, that is a
feature), the tree search returns a DAG in which the class node has
out-degree equal to the number of feature columns and in-degree 0, and the
feature subgraph is a tree: one edge less than nodes, every feature
reachable from the root, and no directed cycle. -/
theorem C7_tree_search_invariants (table : List (ℕ × List ℤ))
    (classNode : ℕ) (rootNode : Option ℕ)
    (hnodup : (table.map Prod.fst).Nodup)
    (hclass : classNode ∈ table.map Prod.fst)
    (hfeat : (table.filter (fun c => c.1 != classNode)).map Prod.fst ≠ [])
    (hroot : ∀ r, rootNode = some r →
      r ∈ (table.filter (fun c => c.1 != classNode)).map Prod.fst) :
    ∃ d : DiGraph, treeEstimate table classNode rootNode = .ok d ∧
      outDeg d classNode =
        ((table.filter (fun c => c.1 != classNode)).map Prod.fst).length ∧
      inDeg d classNode = 0 ∧
      (featEdges d classNode).length + 1 =
        ((table.filter (fun c => c.1 != classNode)).map Prod.fst).length ∧
      (∀ f ∈ (table.filter (fun c => c.1 != classNode)).map Prod.fst,
        dirReach (featEdges d classNode)
          (chosenRoot rootNode
            ((table.filter (fun c => c.1 != classNode)).map Prod.fst)) f) ∧
      (∀ u, ¬ Relation.TransGen
        (fun a b => (a, b) ∈ featEdges d classNode) u u) := by
  have hnd_names : ((table.filter (fun c => c.1 != classNode)).map
      Prod.fst).Nodup :=
    hnodup.sublist (List.Sublist.map Prod.fst (List.filter_sublist table))
  have hclass_not : classNode ∉
      (table.filter (fun c => c.1 != classNode)).map Prod.fst := by
    intro h
    rcases List.mem_map.mp h with ⟨c, hc, hfst⟩
    have hne := List.of_mem_filter hc
    rw [hfst] at hne
    simp at hne
  have hsub : ∀ x ∈ (table.filter (fun c => c.1 != classNode)).map Prod.fst,
      x ∈ table.map Prod.fst := by
    intro x hx
    rcases List.mem_map.mp hx with ⟨c, hc, rfl⟩
    exact List.mem_map.mpr ⟨c, List.mem_of_mem_filter hc, rfl⟩
  have hroot_mem : chosenRoot rootNode
      ((table.filter (fun c => c.1 != classNode)).map Prod.fst) ∈
      (table.filter (fun c => c.1 != classNode)).map Prod.fst := by
    cases rootNode with
    | some r => exact hroot r rfl
    | none =>
        show ((table.filter (fun c => c.1 != classNode)).map
          Prod.fst).headD 0 ∈ _
        rcases hnn : (table.filter (fun c => c.1 != classNode)).map Prod.fst
          with _ | ⟨r, rs⟩
        · exact absurd hnn hfeat
        · rw [hnn]
          exact List.mem_cons_self _ _
  refine ⟨_, treeEstimate_eval table classNode rootNode hclass hfeat hroot hsub,
    ?_⟩
  have hcore := tree_core (table.filter (fun c => c.1 != classNode))
    (chosenRoot rootNode ((table.filter (fun c => c.1 != classNode)).map
      Prod.fst)) classNode hnd_names hroot_mem hclass_not
  exact hcore

/-- Witness for C7: a two-column table (one feature, one class column). -/
theorem C7_witness :
    (([((0 : ℕ), ([3, 7] : List ℤ)), (1, [3, 3])].map Prod.fst).Nodup) ∧
      (1 : ℕ) ∈ [((0 : ℕ), ([3, 7] : List ℤ)), (1, [3, 3])].map Prod.fst ∧
      ([((0 : ℕ), ([3, 7] : List ℤ)), (1, [3, 3])].filter
        (fun c => c.1 != 1)).map Prod.fst ≠ [] ∧
      (∃ d : DiGraph,
        treeEstimate [((0 : ℕ), ([3, 7] : List ℤ)), (1, [3, 3])] 1 none =
          .ok d) := by
  refine ⟨by decide, by decide, by decide, ?_⟩
  rcases C7_tree_search_invariants [((0 : ℕ), ([3, 7] : List ℤ)), (1, [3, 3])]
    1 none (by decide) (by decide) (by decide)
    (fun r hr => Option.noConfusion hr) with ⟨d, hd, _⟩
  exact ⟨d, hd⟩

/-! ### The full constraint-based pipeline (`BNAugmentedNaiveBayesSearch.estimate`) -/

/-- Thickening: for every remaining candidate, in order, add its edge
unless `try_to_separate_a` certifies conditional independence.  `none`
propagates a search call that did not return within its fuel. -/
noncomputable def thicken (table : List (ℕ × List ℤ)) (eps : ℝ) (fuel : ℕ) :
    Graph → List (ℕ × ℕ × ℝ) → Option Graph
  | g, [] => some g
  | g, c :: rest =>
      (try_to_separate_a table eps fuel g c.1 c.2.1).bind fun sep =>
        thicken table eps fuel (if sep then g else addEdge g c.1 c.2.1) rest

/-- One thinning pass over an edge snapshot: remove the edge; if the
endpoints remain connected and the separation test fails to certify
independence, put the edge back, otherwise leave it removed.  `useB`
selects `try_to_separate_b` (second pass) over `try_to_separate_a`. -/
noncomputable def thinPass (table : List (ℕ × List ℤ)) (eps : ℝ) (fuel : ℕ)
    (useB : Bool) : Graph → List (ℕ × ℕ) → Option Graph
  | g, [] => some g
  | g, e :: rest =>
      if hasPath (removeEdge g e.1 e.2) e.1 e.2 then
        ((if useB then
            try_to_separate_b table eps fuel (removeEdge g e.1 e.2) e.1 e.2
          else
            try_to_separate_a table eps fuel (removeEdge g e.1 e.2) e.1 e.2).bind
          fun sep =>
            thinPass table eps fuel useB
              (if sep then removeEdge g e.1 e.2
               else addEdge (removeEdge g e.1 e.2) e.1 e.2) rest)
      else thinPass table eps fuel useB (removeEdge g e.1 e.2) rest

/-- The skeleton phase of `BNAugmentedNaiveBayesSearch.estimate`:
validate, draft, thicken, thin with test A, thin with test B.  The outer
`Option` is the fuel budget (`none` = a separation test diverged), the
inner `Except` the Python exceptions. -/
noncomputable def banSkeleton (table : List (ℕ × List ℤ)) (classNode : ℕ)
    (eps : ℝ) (fuel : ℕ) : Option (Except PyErr Graph) :=
  if classNode ∉ table.map Prod.fst then some (.error .valueError)
  else
    match draft (table.filter (fun c => c.1 != classNode)) eps with
    | none => some (.error .indexError)
    | some (g, L) =>
        match thicken table eps fuel g L with
        | none => none
        | some g2 =>
            match thinPass table eps fuel false g2 g2.edges with
            | none => none
            | some g3 =>
                match thinPass table eps fuel true g3 g3.edges with
                | none => none
                | some g4 => some (.ok g4)

/-- `BNAugmentedNaiveBayesSearch.estimate`: skeleton phase, then (the
edge-orienting routine being disabled in the source) a depth-first tree of
the final skeleton rooted at the first feature column, then the class node
attached as parent of every feature. -/
noncomputable def banEstimate (table : List (ℕ × List ℤ)) (classNode : ℕ)
    (eps : ℝ) (fuel : ℕ) : Option (Except PyErr DiGraph) :=
  match banSkeleton table classNode eps fuel with
  | none => none
  | some (.error e) => some (.error e)
  | some (.ok g) =>
      match (table.filter (fun c => c.1 != classNode)).map Prod.fst with
      | [] => some (.error .indexError)
      | r :: rs =>
          some (.ok (attachClass (searchTree g r true) classNode (r :: rs)))

/-- A table whose two feature columns are independent in the empirical
distribution (one of them constant): no pair exceeds the threshold. -/
def tableX : List (ℕ × List ℤ) := [(0, [3, 7]), (1, [3, 3]), (2, [3, 3])]

/-- C10: on a valid table with a present class node where no feature pair
has mutual information above epsilon, the candidate list is empty, the
first unguarded `L.pop(0)` raises, and `estimate` ends in an `IndexError`
instead of a DAG or one of the specified errors. -/
theorem C10_drafting_pop_index_error :
    banEstimate tableX 2 (3 / 1000) 5 = some (.error .indexError) := by
  have hdraft : draft (tableX.filter (fun c => c.1 != 2)) (3 / 1000) = none := by
    have hfeats : tableX.filter (fun c => c.1 != 2) = [(0, [3, 7]), (1, [3, 3])] :=
      rfl
    have hall : allPairs [((0 : ℕ), ([3, 7] : List ℤ)), (1, [3, 3])] =
        [(0, 1, mutual_info_score [3, 7] [3, 3])] := rfl
    have hcand : candidatePairs [((0 : ℕ), ([3, 7] : List ℤ)), (1, [3, 3])]
        (3 / 1000) = [] := by
      unfold candidatePairs
      rw [hall, mi_const_col]
      have : ¬ ((3 / 1000 : ℝ) < 0) := by norm_num
      simp [List.filter, this]
    rw [hfeats]
    unfold draft
    rw [hcand]
    rfl
  unfold banEstimate banSkeleton
  rw [if_neg (by decide : ¬ ((2 : ℕ) ∉ tableX.map Prod.fst))]
  rw [hdraft]

/-! ### Concrete run of the constraint pipeline -/

/-- Three perfectly correlated feature columns and a class column: the
draft connects 0-1 and 0-2, thickening separates 1 and 2 by conditioning
on 0, and the first thinning pass then removes both remaining (bridge)
edges because their removal disconnects the endpoints. -/
def table8 : List (ℕ × List ℤ) :=
  [(0, [3, 7]), (1, [3, 7]), (2, [3, 7]), (3, [3, 3])]

lemma condMI_self_cond :
    conditional_mutual_info_score [3, 7] [3, 7] [[3, 7]] = 0 := by
  unfold conditional_mutual_info_score
  rw [if_neg (by decide : ¬ ([[3, 7]] : List (List ℤ)).length = 0)]
  rw [List.foldl_cons, List.foldl_nil]
  rw [show uniques [3, 7] = [3, 7] from rfl]
  rw [List.foldl_cons, List.foldl_cons, List.foldl_nil]
  rw [show restrict [3, 7] [3, 7] 3 = [3] from rfl,
    show restrict [3, 7] [3, 7] 7 = [7] from rfl]
  rw [mi_single_three, mi_single_seven]
  norm_num

lemma tts_a_table8 :
    try_to_separate_a table8 (3 / 1000) 5 ⟨[0, 1, 2], [(0, 1), (0, 2)]⟩ 1 2 =
      some true := by
  have hrun : try_to_separate_a table8 (3 / 1000) 5
      ⟨[0, 1, 2], [(0, 1), (0, 2)]⟩ 1 2 =
      runA ⟨table8, 3 / 1000, ⟨[0, 1, 2], [(0, 1), (0, 2)]⟩, 1, 2, [0]⟩ 5
        ⟨[0], 0, false, false⟩ := rfl
  have hc : condBy ⟨table8, 3 / 1000, ⟨[0, 1, 2], [(0, 1), (0, 2)]⟩, 1, 2, [0]⟩
      [0] = 0 := by
    show conditional_mutual_info_score (getCol table8 1) (getCol table8 2)
      ([0].map (getCol table8)) = 0
    rw [show getCol table8 1 = [3, 7] from rfl,
      show getCol table8 2 = [3, 7] from rfl,
      show ([0].map (getCol table8)) = [[3, 7]] from rfl]
    exact condMI_self_cond
  have hstep : stepA ⟨table8, 3 / 1000, ⟨[0, 1, 2], [(0, 1), (0, 2)]⟩, 1, 2, [0]⟩
      ⟨[0], 0, false, false⟩ = .done true := by
    unfold stepA
    rw [if_pos ⟨rfl, by rw [hc]; show (0 : ℝ) < 3 / 1000; norm_num⟩]
  rw [hrun]
  show (match stepA ⟨table8, 3 / 1000, ⟨[0, 1, 2], [(0, 1), (0, 2)]⟩, 1, 2, [0]⟩
      ⟨[0], 0, false, false⟩ with
    | StepRes.done b => some b
    | StepRes.next s' =>
        runA ⟨table8, 3 / 1000, ⟨[0, 1, 2], [(0, 1), (0, 2)]⟩, 1, 2, [0]⟩ 4 s') =
    some true
  rw [hstep]

lemma thicken_table8 :
    thicken table8 (3 / 1000) 5 ⟨[0, 1, 2], [(0, 1), (0, 2)]⟩
      [(1, 2, Real.log 2)] = some ⟨[0, 1, 2], [(0, 1), (0, 2)]⟩ := by
  show (try_to_separate_a table8 (3 / 1000) 5
      ⟨[0, 1, 2], [(0, 1), (0, 2)]⟩ 1 2).bind _ = _
  rw [tts_a_table8]
  rfl

lemma thin_a_table8 :
    thinPass table8 (3 / 1000) 5 false ⟨[0, 1, 2], [(0, 1), (0, 2)]⟩
      [(0, 1), (0, 2)] = some ⟨[0, 1, 2], []⟩ := by
  rfl

lemma banSkeleton_table8 :
    banSkeleton table8 3 (3 / 1000) 5 = some (.ok ⟨[0, 1, 2], []⟩) := by
  unfold banSkeleton
  rw [if_neg (by decide : ¬ ((3 : ℕ) ∉ table8.map Prod.fst))]
  rw [show table8.filter (fun c => c.1 != 3) = featsIII from rfl]
  rw [draft_featsIII]
  show (match thicken table8 (3 / 1000) 5 ⟨[0, 1, 2], [(0, 1), (0, 2)]⟩
      [(1, 2, Real.log 2)] with
    | none => none
    | some g2 =>
        match thinPass table8 (3 / 1000) 5 false g2 g2.edges with
        | none => none
        | some g3 =>
            match thinPass table8 (3 / 1000) 5 true g3 g3.edges with
            | none => none
            | some g4 => some (Except.ok g4)) = _
  rw [thicken_table8]
  show (match thinPass table8 (3 / 1000) 5 false ⟨[0, 1, 2], [(0, 1), (0, 2)]⟩
      [(0, 1), (0, 2)] with
    | none => none
    | some g3 =>
        match thinPass table8 (3 / 1000) 5 true g3 g3.edges with
        | none => none
        | some g4 => some (Except.ok g4)) = _
  rw [thin_a_table8]
  rfl

lemma banEstimate_table8 :
    banEstimate table8 3 (3 / 1000) 5 =
      some (.ok ⟨[0, 3, 1, 2], [(3, 0), (3, 1), (3, 2)]⟩) := by
  unfold banEstimate
  rw [banSkeleton_table8]
  rfl

/-- C8 counterexample: on `table8` the thinning stage removes every bridge
edge (removal disconnects the endpoints, so the edge is left out), the
final skeleton is edgeless, and the returned DAG has no feature-to-feature
edges at all — feature 1 is a feature column but is not reachable from the
root feature 0 in the (empty) arborescence, contradicting the claimed
spanning property. -/
theorem C8_counterexample :
    banEstimate table8 3 (3 / 1000) 5 =
        some (.ok ⟨[0, 3, 1, 2], [(3, 0), (3, 1), (3, 2)]⟩) ∧
      featEdges ⟨[0, 3, 1, 2], [(3, 0), (3, 1), (3, 2)]⟩ 3 = [] ∧
      (1 : ℕ) ∈ (table8.filter (fun c => c.1 != 3)).map Prod.fst ∧
      ¬ dirReach (featEdges ⟨[0, 3, 1, 2], [(3, 0), (3, 1), (3, 2)]⟩ 3) 0 1 := by
  refine ⟨banEstimate_table8, rfl, by decide, ?_⟩
  intro h
  rcases Relation.ReflTransGen.cases_head h with h01 | ⟨c, hc, _⟩
  · exact absurd h01 (by decide)
  · have : ((0 : ℕ), c) ∈ (featEdges ⟨[0, 3, 1, 2],
        [(3, 0), (3, 1), (3, 2)]⟩ 3) := hc
    simp [featEdges] at this

/-! ### Well-formedness through the constraint pipeline -/

lemma removeEdge_nodes (g : Graph) (u v : ℕ) :
    (removeEdge g u v).nodes = g.nodes := rfl

lemma removeEdge_wf {g : Graph} (hwf : WF g) (u v : ℕ) :
    WF (removeEdge g u v) := by
  refine ⟨hwf.1, ?_⟩
  intro e he
  exact hwf.2 e (List.mem_of_mem_filter he)

/-- The drafting scan preserves well-formedness and the node list, and
keeps only candidates from the input list. -/
lemma scanDraft_wf :
    ∀ (l : List (ℕ × ℕ × ℝ)) (g : Graph), WF g →
      (∀ c ∈ l, c.1 ∈ g.nodes ∧ c.2.1 ∈ g.nodes) →
      WF (scanDraft g l).1 ∧ (scanDraft g l).1.nodes = g.nodes ∧
        (scanDraft g l).2 ⊆ l := by
  intro l
  induction l with
  | nil =>
      intro g hwf _
      exact ⟨hwf, rfl, fun _ h => h⟩
  | cons c rest ih =>
      intro g hwf hc
      rw [scanDraft_cons]
      by_cases hbreak : g.edges.length = g.nodes.length + 1
      · rw [if_pos hbreak]
        exact ⟨hwf, rfl, fun _ h => h⟩
      · rw [if_neg hbreak]
        by_cases hpath : hasPath g c.1 c.2.1 = true
        · rw [if_pos hpath]
          rcases ih g hwf (fun d hd => hc d (List.mem_cons_of_mem _ hd)) with
            ⟨h1, h2, h3⟩
          exact ⟨h1, h2, List.cons_subset_cons c h3⟩
        · rw [if_neg hpath]
          have hce := hc c (List.mem_cons_self _ _)
          have hwf' := addEdge_wf hwf hce.1 hce.2
          have hn' := addEdge_nodes_of_mem hce.1 hce.2
          rcases ih (addEdge g c.1 c.2.1) hwf'
            (fun d hd => by
              rw [hn']
              exact hc d (List.mem_cons_of_mem _ hd)) with ⟨h1, h2, h3⟩
          exact ⟨h1, by rw [h2, hn'],
            fun x hx => List.mem_cons_of_mem _ (h3 hx)⟩

/-- A successful draft yields a well-formed graph over exactly the feature
names, and every kept candidate's endpoints are feature names. -/
lemma draft_wf {feats : List (ℕ × List ℤ)} {eps : ℝ} {g : Graph}
    {L : List (ℕ × ℕ × ℝ)} (hnd : (feats.map Prod.fst).Nodup)
    (h : draft feats eps = some (g, L)) :
    WF g ∧ g.nodes = feats.map Prod.fst ∧
      ∀ c ∈ L, c.1 ∈ feats.map Prod.fst ∧ c.2.1 ∈ feats.map Prod.fst := by
  unfold draft at h
  cases hsort : sortDesc (candidatePairs feats eps) with
  | nil =>
      rw [hsort] at h
      exact absurd
        (show (none : Option (Graph × List (ℕ × ℕ × ℝ))) = some (g, L) from h)
        (by simp)
  | cons a tl =>
      cases tl with
      | nil =>
          rw [hsort] at h
          exact absurd
            (show (none : Option (Graph × List (ℕ × ℕ × ℝ))) = some (g, L)
              from h) (by simp)
      | cons b rest =>
          rw [hsort] at h
          replace h : some (scanDraft
              (addEdge (addEdge ⟨feats.map Prod.fst, []⟩ a.1 a.2.1) b.1 b.2.1)
              rest) = some (g, L) := h
          have hmem : ∀ c ∈ a :: b :: rest, c.1 ∈ feats.map Prod.fst ∧
              c.2.1 ∈ feats.map Prod.fst := by
            intro c hcm
            have hcs : c ∈ sortDesc (candidatePairs feats eps) := by
              rw [hsort]
              exact hcm
            exact allPairs_mem_names c
              (List.mem_of_mem_filter (mem_sortDesc.mp hcs))
          have ha := hmem a (List.mem_cons_self _ _)
          have hb := hmem b (List.mem_cons_of_mem _ (List.mem_cons_self _ _))
          have hwf0 : WF (⟨feats.map Prod.fst, []⟩ : Graph) := ⟨hnd, by simp⟩
          have hwf1 := addEdge_wf hwf0 ha.1 ha.2
          have hn1 : (addEdge ⟨feats.map Prod.fst, []⟩ a.1 a.2.1).nodes =
              feats.map Prod.fst := addEdge_nodes_of_mem ha.1 ha.2
          have hb1 : b.1 ∈ (addEdge ⟨feats.map Prod.fst, []⟩ a.1 a.2.1).nodes := by
            rw [hn1]
            exact hb.1
          have hb2 : b.2.1 ∈ (addEdge ⟨feats.map Prod.fst, []⟩ a.1 a.2.1).nodes := by
            rw [hn1]
            exact hb.2
          have hwf2 := addEdge_wf hwf1 hb1 hb2
          have hn2 : (addEdge (addEdge ⟨feats.map Prod.fst, []⟩ a.1 a.2.1)
              b.1 b.2.1).nodes = feats.map Prod.fst := by
            rw [addEdge_nodes_of_mem hb1 hb2, hn1]
          rcases scanDraft_wf rest _ hwf2 (fun d hd => by
            rw [hn2]
            exact hmem d (List.mem_cons_of_mem _ (List.mem_cons_of_mem _ hd)))
            with ⟨h1, h2, h3⟩
          have hgl := Option.some.inj h
          have hg : (scanDraft (addEdge (addEdge ⟨feats.map Prod.fst, []⟩
              a.1 a.2.1) b.1 b.2.1) rest).1 = g := congrArg Prod.fst hgl
          have hLeq : (scanDraft (addEdge (addEdge ⟨feats.map Prod.fst, []⟩
              a.1 a.2.1) b.1 b.2.1) rest).2 = L := congrArg Prod.snd hgl
          rw [hg] at h1 h2
          rw [hn2] at h2
          refine ⟨h1, h2, ?_⟩
          intro c hcL
          rw [← hLeq] at hcL
          exact hmem c
            (List.mem_cons_of_mem _ (List.mem_cons_of_mem _ (h3 hcL)))

lemma thicken_cons (table : List (ℕ × List ℤ)) (eps : ℝ) (fuel : ℕ)
    (g : Graph) (c : ℕ × ℕ × ℝ) (rest : List (ℕ × ℕ × ℝ)) :
    thicken table eps fuel g (c :: rest) =
      (try_to_separate_a table eps fuel g c.1 c.2.1).bind fun sep =>
        thicken table eps fuel (if sep then g else addEdge g c.1 c.2.1) rest :=
  rfl

/-- Thickening preserves well-formedness and the node list when every
candidate's endpoints are nodes. -/
lemma thicken_wf (table : List (ℕ × List ℤ)) (eps : ℝ) (fuel : ℕ) :
    ∀ (l : List (ℕ × ℕ × ℝ)) (g g' : Graph), WF g →
      (∀ c ∈ l, c.1 ∈ g.nodes ∧ c.2.1 ∈ g.nodes) →
      thicken table eps fuel g l = some g' →
      WF g' ∧ g'.nodes = g.nodes := by
  intro l
  induction l with
  | nil =>
      intro g g' hwf _ h
      replace h : some g = some g' := h
      cases Option.some.inj h
      exact ⟨hwf, rfl⟩
  | cons c rest ih =>
      intro g g' hwf hc h
      rw [thicken_cons] at h
      cases hsep : try_to_separate_a table eps fuel g c.1 c.2.1 with
      | none =>
          rw [hsep] at h
          exact absurd (show (none : Option Graph) = some g' from h) (by simp)
      | some sep =>
          rw [hsep] at h
          replace h : thicken table eps fuel
              (if sep then g else addEdge g c.1 c.2.1) rest = some g' := h
          have hce := hc c (List.mem_cons_self _ _)
          cases sep with
          | true =>
              rw [if_pos rfl] at h
              exact ih g g' hwf (fun d hd => hc d (List.mem_cons_of_mem _ hd)) h
          | false =>
              rw [if_neg (by simp)] at h
              have hwf' := addEdge_wf hwf hce.1 hce.2
              have hn' := addEdge_nodes_of_mem hce.1 hce.2
              rcases ih (addEdge g c.1 c.2.1) g' hwf'
                (fun d hd => by
                  rw [hn']
                  exact hc d (List.mem_cons_of_mem _ hd)) h with ⟨h1, h2⟩
              exact ⟨h1, by rw [h2, hn']⟩

lemma thinPass_cons (table : List (ℕ × List ℤ)) (eps : ℝ) (fuel : ℕ)
    (useB : Bool) (g : Graph) (e : ℕ × ℕ) (rest : List (ℕ × ℕ)) :
    thinPass table eps fuel useB g (e :: rest) =
      if hasPath (removeEdge g e.1 e.2) e.1 e.2 then
        ((if useB then
            try_to_separate_b table eps fuel (removeEdge g e.1 e.2) e.1 e.2
          else
            try_to_separate_a table eps fuel (removeEdge g e.1 e.2) e.1 e.2).bind
          fun sep =>
            thinPass table eps fuel useB
              (if sep then removeEdge g e.1 e.2
               else addEdge (removeEdge g e.1 e.2) e.1 e.2) rest)
      else thinPass table eps fuel useB (removeEdge g e.1 e.2) rest :=
  rfl

/-- A thinning pass preserves well-formedness and the node list when every
snapshot edge's endpoints are nodes. -/
lemma thinPass_wf (table : List (ℕ × List ℤ)) (eps : ℝ) (fuel : ℕ)
    (useB : Bool) :
    ∀ (es : List (ℕ × ℕ)) (g g' : Graph), WF g →
      (∀ e ∈ es, e.1 ∈ g.nodes ∧ e.2 ∈ g.nodes) →
      thinPass table eps fuel useB g es = some g' →
      WF g' ∧ g'.nodes = g.nodes := by
  intro es
  induction es with
  | nil =>
      intro g g' hwf _ h
      replace h : some g = some g' := h
      cases Option.some.inj h
      exact ⟨hwf, rfl⟩
  | cons e rest ih =>
      intro g g' hwf he h
      rw [thinPass_cons] at h
      have hee := he e (List.mem_cons_self _ _)
      have hwfr : WF (removeEdge g e.1 e.2) := removeEdge_wf hwf e.1 e.2
      by_cases hp : hasPath (removeEdge g e.1 e.2) e.1 e.2 = true
      · rw [if_pos hp] at h
        cases hsep : (if useB then
            try_to_separate_b table eps fuel (removeEdge g e.1 e.2) e.1 e.2
          else
            try_to_separate_a table eps fuel (removeEdge g e.1 e.2) e.1 e.2) with
        | none =>
            rw [hsep] at h
            exact absurd (show (none : Option Graph) = some g' from h) (by simp)
        | some sep =>
            rw [hsep] at h
            replace h : thinPass table eps fuel useB
                (if sep then removeEdge g e.1 e.2
                 else addEdge (removeEdge g e.1 e.2) e.1 e.2) rest = some g' := h
            cases sep with
            | true =>
                rw [if_pos rfl] at h
                exact ih (removeEdge g e.1 e.2) g' hwfr
                  (fun d hd => he d (List.mem_cons_of_mem _ hd)) h
            | false =>
                rw [if_neg (by simp)] at h
                have hwfa := addEdge_wf hwfr hee.1 hee.2
                have hna : (addEdge (removeEdge g e.1 e.2) e.1 e.2).nodes =
                    g.nodes := addEdge_nodes_of_mem hee.1 hee.2
                rcases ih (addEdge (removeEdge g e.1 e.2) e.1 e.2) g' hwfa
                  (fun d hd => by
                    rw [hna]
                    exact he d (List.mem_cons_of_mem _ hd)) h with ⟨h1, h2⟩
                exact ⟨h1, by rw [h2, hna]⟩
      · rw [if_neg hp] at h
        exact ih (removeEdge g e.1 e.2) g' hwfr
          (fun d hd => he d (List.mem_cons_of_mem _ hd)) h

/-- The skeleton phase returns a well-formed graph over exactly the
feature names. -/
lemma banSkeleton_wf {table : List (ℕ × List ℤ)} {classNode : ℕ} {eps : ℝ}
    {fuel : ℕ} {g : Graph} (hnd : (table.map Prod.fst).Nodup)
    (h : banSkeleton table classNode eps fuel = some (.ok g)) :
    WF g ∧
      g.nodes = (table.filter (fun c => c.1 != classNode)).map Prod.fst := by
  unfold banSkeleton at h
  by_cases hcls : classNode ∉ table.map Prod.fst
  · rw [if_pos hcls] at h
    exact absurd (Option.some.inj h) (by simp)
  · rw [if_neg hcls] at h
    set feats := table.filter (fun c => c.1 != classNode) with hfeats
    have hndf : (feats.map Prod.fst).Nodup :=
      List.Nodup.sublist (List.Sublist.map Prod.fst (List.filter_sublist table))
        hnd
    cases hdraft : draft feats eps with
    | none =>
        rw [hdraft] at h
        exact absurd (Option.some.inj h) (by simp)
    | some p =>
        obtain ⟨g0, L⟩ := p
        rw [hdraft] at h
        replace h : (match thicken table eps fuel g0 L with
            | none => none
            | some g2 =>
                match thinPass table eps fuel false g2 g2.edges with
                | none => none
                | some g3 =>
                    match thinPass table eps fuel true g3 g3.edges with
                    | none => none
                    | some g4 => some (Except.ok g4)) =
            some (Except.ok g) := h
        rcases draft_wf hndf hdraft with ⟨hwf0, hn0, hL⟩
        cases hth : thicken table eps fuel g0 L with
        | none =>
            rw [hth] at h
            exact absurd
              (show (none : Option (Except PyErr Graph)) = some (Except.ok g)
                from h) (by simp)
        | some g2 =>
            rw [hth] at h
            replace h : (match thinPass table eps fuel false g2 g2.edges with
                | none => none
                | some g3 =>
                    match thinPass table eps fuel true g3 g3.edges with
                    | none => none
                    | some g4 => some (Except.ok g4)) =
                some (Except.ok g) := h
            rcases thicken_wf table eps fuel L g0 g2 hwf0
              (fun c hc => by
                rw [hn0]
                exact hL c hc) hth with ⟨hwf2, hn2⟩
            cases hthin1 : thinPass table eps fuel false g2 g2.edges with
            | none =>
                rw [hthin1] at h
                exact absurd
                  (show (none : Option (Except PyErr Graph)) =
                    some (Except.ok g) from h) (by simp)
            | some g3 =>
                rw [hthin1] at h
                replace h : (match thinPass table eps fuel true g3 g3.edges with
                    | none => none
                    | some g4 => some (Except.ok g4)) = some (Except.ok g) := h
                rcases thinPass_wf table eps fuel false g2.edges g2 g3 hwf2
                  (fun e he => hwf2.2 e he) hthin1 with ⟨hwf3, hn3⟩
                cases hthin2 : thinPass table eps fuel true g3 g3.edges with
                | none =>
                    rw [hthin2] at h
                    exact absurd
                      (show (none : Option (Except PyErr Graph)) =
                        some (Except.ok g) from h) (by simp)
                | some g4 =>
                    rw [hthin2] at h
                    have hg4 : g4 = g := Except.ok.inj (Option.some.inj h)
                    rcases thinPass_wf table eps fuel true g3.edges g3 g4 hwf3
                      (fun e he => hwf3.2 e he) hthin2 with ⟨hwf4, hn4⟩
                    subst hg4
                    exact ⟨hwf4, by rw [hn4, hn3, hn2, hn0]⟩

/-- The traversal of any well-formed graph keeps the tree invariants and
produces a visit set closed under the neighbor relation. -/
lemma traverse_inv (g : Graph) (root : ℕ) (df : Bool) (hwf : WF g) :
    TravInv g root (traverse g root df).1 (traverse g root df).2 ∧
      ∀ x ∈ (traverse g root df).1, ∀ w ∈ neighbors g x,
        w ∈ (traverse g root df).1 := by
  have hinv0 : TravInv g root [root] [] := by
    refine ⟨List.nodup_singleton _, ?_, rfl, ?_, ?_, ?_⟩
    · intro x hx
      rw [List.mem_singleton.mp hx]
      exact List.mem_cons_self _ _
    · intro e he
      simp at he
    · intro x hx
      rw [List.mem_singleton.mp hx]
      exact Relation.ReflTransGen.refl
    · intro x hx
      rw [List.mem_singleton.mp hx]
      exact conn_refl _ _
  have hspec := traverseAux_spec g df root hwf (g.nodes.length + 1)
    [root] [root] [] hinv0 (fun _ h => h)
    (fun x hx => Or.inl hx)
    (by simp; omega)
  exact ⟨hspec.1, hspec.2.2.2⟩

set_option maxHeartbeats 1000000 in
/-- C8 (amended): for every table with distinct column names whose
skeleton phase succeeds with final skeleton `g` and whose feature list
starts with `r`, the constraint search returns the DAG obtained by
attaching the class node to the depth-first tree of `g` rooted at `r`;
restricted to feature-to-feature edges the DAG is exactly that
depth-first-search tree, every feature connected to `r` in the final
skeleton is reachable from `r` inside it, and it is acyclic.  The original
spanning claim over all features fails (see the counterexample): thinning
can disconnect the skeleton, so features outside the root's component are
unreachable. -/
theorem C8_amended (table : List (ℕ × List ℤ)) (classNode : ℕ) (eps : ℝ)
    (fuel : ℕ) (g : Graph) (r : ℕ) (rs : List ℕ)
    (hnd : (table.map Prod.fst).Nodup)
    (hskel : banSkeleton table classNode eps fuel = some (.ok g))
    (hnames : (table.filter (fun c => c.1 != classNode)).map Prod.fst =
      r :: rs) :
    banEstimate table classNode eps fuel =
        some (.ok (attachClass (searchTree g r true) classNode (r :: rs))) ∧
      featEdges (attachClass (searchTree g r true) classNode (r :: rs))
          classNode = (traverse g r true).2 ∧
      (∀ f, Conn g r f →
        dirReach (featEdges (attachClass (searchTree g r true) classNode
          (r :: rs)) classNode) r f) ∧
      (∀ u, ¬ Relation.TransGen (fun a b => (a, b) ∈
        featEdges (attachClass (searchTree g r true) classNode (r :: rs))
          classNode) u u) := by
  rcases banSkeleton_wf hnd hskel with ⟨hwf, hgnodes⟩
  rw [hnames] at hgnodes
  have hclass : classNode ∉ r :: rs := by
    rw [← hnames]
    intro hmem
    rcases List.mem_map.mp hmem with ⟨c, hc, hceq⟩
    have hpc := List.of_mem_filter hc
    rw [hceq] at hpc
    simp at hpc
  have hndf : (r :: rs).Nodup := by
    rw [← hnames]
    exact List.Nodup.sublist (List.Sublist.map Prod.fst
      (List.filter_sublist table)) hnd
  have hest : banEstimate table classNode eps fuel =
      some (.ok (attachClass (searchTree g r true) classNode (r :: rs))) := by
    unfold banEstimate
    rw [hskel]
    show (match (table.filter (fun c => c.1 != classNode)).map Prod.fst with
      | [] => some (Except.error PyErr.indexError)
      | p :: ps =>
          some (Except.ok (attachClass (searchTree g p true) classNode
            (p :: ps)))) =
      some (Except.ok (attachClass (searchTree g r true) classNode (r :: rs)))
    rw [hnames]
  rcases traverse_inv g r true hwf with ⟨rinv, rclosed⟩
  have hroot_vis : r ∈ (traverse g r true).1 := by
    rw [rinv.shape]
    exact List.mem_cons_self _ _
  have hvis_names : ∀ x ∈ (traverse g r true).1, x ∈ r :: rs := by
    intro x hx
    rcases List.mem_cons.mp (rinv.sub hx) with h | h
    · rw [h]
      exact List.mem_cons_self _ _
    · rw [hgnodes] at h
      exact h
  have hes_src : ∀ e ∈ (traverse g r true).2, e.1 ≠ classNode := by
    intro e he hne
    exact hclass (hne ▸ hvis_names _ (rinv.edges e he).1)
  have hd_edges : (attachClass (searchTree g r true) classNode
      (r :: rs)).edges =
      (traverse g r true).2 ++ (r :: rs).map (fun f => (classNode, f)) := by
    apply attachClass_edges classNode (r :: rs) (searchTree g r true) hndf
    intro f _ hmem
    exact hes_src _ hmem rfl
  have hfe : featEdges (attachClass (searchTree g r true) classNode (r :: rs))
      classNode = (traverse g r true).2 := by
    unfold featEdges
    rw [hd_edges, List.filter_append]
    have h1 : (traverse g r true).2.filter (fun e => e.1 != classNode) =
        (traverse g r true).2 := by
      apply List.filter_eq_self.mpr
      intro e he
      simpa using hes_src e he
    have h2 : ((r :: rs).map (fun f => (classNode, f))).filter
        (fun e => e.1 != classNode) = [] := by
      apply List.filter_eq_nil_iff.mpr
      intro e he
      rcases List.mem_map.mp he with ⟨f, _, rfl⟩
      simp
    rw [h1, h2]
    simp
  refine ⟨hest, hfe, ?_, ?_⟩
  · intro f hconn
    rw [hfe]
    exact rinv.reach f (closed_conn_mem rclosed hroot_vis hconn)
  · intro u
    rw [hfe]
    exact acyclic_of_rank (traverse g r true).2
      (fun x => (traverse g r true).1.indexOf x)
      (fun e he => (rinv.edges e he).2.2) u

/-- Witness for C8 (amended): the `table8` run, whose final skeleton is the
edgeless graph on the three features — the depth-first tree from root 0 is
empty and only features connected to 0 (here just 0 itself) are covered. -/
theorem C8_witness :
    (table8.map Prod.fst).Nodup ∧
      banSkeleton table8 3 (3 / 1000) 5 = some (.ok ⟨[0, 1, 2], []⟩) ∧
      (table8.filter (fun c => c.1 != 3)).map Prod.fst = 0 :: [1, 2] ∧
      (banEstimate table8 3 (3 / 1000) 5 =
          some (.ok (attachClass (searchTree ⟨[0, 1, 2], []⟩ 0 true) 3
            (0 :: [1, 2]))) ∧
        featEdges (attachClass (searchTree ⟨[0, 1, 2], []⟩ 0 true) 3
            (0 :: [1, 2])) 3 = (traverse ⟨[0, 1, 2], []⟩ 0 true).2 ∧
        (∀ f, Conn ⟨[0, 1, 2], []⟩ 0 f →
          dirReach (featEdges (attachClass (searchTree ⟨[0, 1, 2], []⟩ 0 true)
            3 (0 :: [1, 2])) 3) 0 f) ∧
        (∀ u, ¬ Relation.TransGen (fun a b => (a, b) ∈
          featEdges (attachClass (searchTree ⟨[0, 1, 2], []⟩ 0 true) 3
            (0 :: [1, 2])) 3) u u)) :=
  ⟨by decide, banSkeleton_table8, by decide,
    C8_amended table8 3 (3 / 1000) 5 ⟨[0, 1, 2], []⟩ 0 [1, 2] (by decide)
      banSkeleton_table8 (by decide)⟩

end BNC
